import Mathlib

/-!
Verification of the invoice/export parsing and cost-allocation engine of the
ITLicensingBreakdown repository (`app/processing.py`, `app/main.py`,
`app/integricom_directory.py`).

Modelling conventions, chosen once for the whole development:

* Python strings are modelled as `List Char` (`Str`).  Python string methods
  (`strip`, `lower`, `split`, `in`, lexicographic `<`) are re-implemented
  structurally so that every definition evaluates under `decide`.
* Python `Decimal` values are modelled exactly as a scaled integer
  (`Dec`, value = `m / 10 ^ e`).  `Decimal` addition, subtraction and
  multiplication are exact in the source (all operands stay far below the
  28-significant-digit context), and so are their `Dec` counterparts.
  `Decimal.quantize(Decimal("0.01"))` uses the default `ROUND_HALF_EVEN`
  mode and is modelled by `Dec.quantize2` / `Dec.cents`.
* Monetary values inside the allocation engine are always quantized to two
  fraction digits on entry (the invoice parser quantizes every field), so the
  allocation functions are modelled directly over integer cents (`ℤ`);
  a `.quantize(Decimal("0.01"))` applied to such a value is the identity.
* Warnings are modelled as the actual strings the source builds, so that
  "a warning mentioning X" can be stated as substring containment.
-/

namespace ITLB

/-! ## Python string primitives -/

/-- Python strings, as explicit character lists. -/
abbrev Str := List Char

/-- Shorthand turning a Lean string literal into `Str`. -/
def str (s : String) : Str := s.data

/-- Characters treated as whitespace by Python `str.strip` / regex `\s`
(ASCII range). -/
def is_py_space (c : Char) : Bool :=
  c = ' ' || c = '\t' || c = '\n' || c = '\r' || c = '\x0b' || c = '\x0c'

/-- Python `str.strip()`. -/
def py_strip (s : Str) : Str :=
  ((s.dropWhile is_py_space).reverse.dropWhile is_py_space).reverse

/-- Python `str.lower()` (ASCII case folding; non-ASCII characters only ever
reach normalizers that replace them wholesale, so ASCII folding is faithful
wherever the result is observed). -/
def py_lower (s : Str) : Str := s.map Char.toLower

/-- Python `str.startswith(p)`. -/
def starts_with (p s : Str) : Bool :=
  match p, s with
  | [], _ => true
  | _ :: _, [] => false
  | a :: ps, b :: ss => a = b && starts_with ps ss

/-- Python `needle in hay` substring containment. -/
def contains_sub (needle hay : Str) : Bool :=
  starts_with needle hay ||
    match hay with
    | [] => false
    | _ :: rest => contains_sub needle rest

/-- Python `str.replace(old_char, new_char)` for single characters. -/
def replace_char (old new : Char) (s : Str) : Str :=
  s.map fun c => if c = old then new else c

/-- Python `str.replace(c, "")`: delete every occurrence of a character. -/
def delete_char (target : Char) (s : Str) : Str :=
  s.filter fun c => c ≠ target

/-- Python string `<` (lexicographic on code points). -/
def str_lt (a b : Str) : Bool :=
  match a, b with
  | [], [] => false
  | [], _ :: _ => true
  | _ :: _, [] => false
  | x :: xs, y :: ys => if x = y then str_lt xs ys else decide (x < y)

/-- Non-strict string order derived from `str_lt`. -/
def str_le (a b : Str) : Bool := str_lt a b || a = b

/-- Python `str.split(sep)` for a single-character separator, keeping empty
fields (as Python does). -/
def py_split (sep : Char) (s : Str) : List Str :=
  match s with
  | [] => [[]]
  | c :: rest =>
    let tail := py_split sep rest
    if c = sep then [] :: tail
    else
      match tail with
      | [] => [[c]]
      | t :: ts => (c :: t) :: ts

/-! ## Exact decimals

`Dec` is the exact value semantics of Python `Decimal` for the finite values
this code manipulates: `m / 10 ^ e`. -/

/-- An exact decimal number: mantissa `m` at scale `e` (value `m / 10 ^ e`). -/
structure Dec where
  m : ℤ
  e : ℕ
deriving DecidableEq, Repr

namespace Dec

/-- Mantissa of `x` rescaled to scale `e'` (meaningful for `x.e ≤ e'`). -/
def scale_to (x : Dec) (targetE : ℕ) : ℤ := x.m * 10 ^ (targetE - x.e)

/-- Exact decimal addition (`Decimal.__add__`; result carries the finer of
the two scales, matching `Decimal`). -/
def add (x y : Dec) : Dec :=
  let e := max x.e y.e
  ⟨x.scale_to e + y.scale_to e, e⟩

/-- Decimal negation. -/
def neg (x : Dec) : Dec := ⟨-x.m, x.e⟩

/-- Exact decimal subtraction. -/
def sub (x y : Dec) : Dec := add x (neg y)

/-- Exact decimal multiplication (`Decimal.__mul__`). -/
def mul (x y : Dec) : Dec := ⟨x.m * y.m, x.e + y.e⟩

/-- Value equality on decimals (`Decimal.__eq__`: `1.0 == 1.00`). -/
def val_eq (x y : Dec) : Bool :=
  let e := max x.e y.e
  x.scale_to e = y.scale_to e

/-- Value order on decimals (`Decimal.__le__`). -/
def val_le (x y : Dec) : Bool :=
  let e := max x.e y.e
  x.scale_to e ≤ y.scale_to e

/-- Round `n / d` (for `d > 0`) to the nearest integer, ties to even:
the default `ROUND_HALF_EVEN` of `decimal`. -/
def round_half_even (n d : ℤ) : ℤ :=
  let f := n.fdiv d
  let r := n.fmod d
  if 2 * r < d then f
  else if d < 2 * r then f + 1
  else if f % 2 = 0 then f else f + 1

/-- The value of `x` in cents, rounded half-even:
`x.quantize(Decimal("0.01"))` scaled by 100. -/
def cents (x : Dec) : ℤ :=
  if x.e ≤ 2 then x.m * 10 ^ (2 - x.e)
  else round_half_even x.m (10 ^ (x.e - 2))

/-- `x.quantize(Decimal("0.01"))` with the default half-even rounding. -/
def quantize2 (x : Dec) : Dec := ⟨x.cents, 2⟩

/-- `int(x)` for a decimal: truncation toward zero. -/
def trunc_int (x : Dec) : ℤ :=
  if 0 ≤ x.m then x.m / (10 ^ x.e : ℤ) else -((-x.m) / (10 ^ x.e : ℤ))

end Dec

/-! ## `_parse_decimal` (`processing.py` lines 243-265)

The numeric residue accepted by `Decimal(cleaned)` is modelled as the finite
numeral grammar `sign? (digits "."? digits? | "." digits) (e sign? digits)?`
(at least one mantissa digit).  The special values `NaN`/`Infinity` that
`Decimal` also accepts are outside the model: they cannot denote money and no
call site can produce them from invoice text. -/

/-- Splits a leading run of decimal digits. -/
def take_digits (s : Str) : Str × Str :=
  (s.takeWhile Char.isDigit, s.dropWhile Char.isDigit)

/-- Numeric value of a digit string (most significant first). -/
def digits_val (ds : Str) : ℕ :=
  ds.foldl (fun acc c => acc * 10 + (c.toNat - '0'.toNat)) 0

/-- Parses an optional sign, returning `-1` or `1` and the rest. -/
def take_sign (s : Str) : ℤ × Str :=
  match s with
  | '-' :: rest => (-1, rest)
  | '+' :: rest => (1, rest)
  | _ => (1, s)

/-- Applies a decimal exponent `k` to a mantissa at fractional scale `frac`,
keeping the representation exact. -/
def apply_exp (mant : ℤ) (frac : ℕ) (k : ℤ) : Dec :=
  let d : ℤ := k - (frac : ℤ)
  if 0 ≤ d then ⟨mant * 10 ^ d.toNat, 0⟩ else ⟨mant, (-d).toNat⟩

/-- Parses the optional exponent suffix of a `Decimal` literal. -/
def parse_exp_suffix (mant : ℤ) (frac : ℕ) (s : Str) : Option Dec :=
  match s with
  | [] => some ⟨mant, frac⟩
  | c :: rest =>
    if c = 'e' || c = 'E' then
      let (esign, r1) := take_sign rest
      let (eds, r2) := take_digits r1
      if eds = [] || r2 ≠ [] then none
      else some (apply_exp mant frac (esign * (digits_val eds : ℤ)))
    else none

/-- Parses the numeral grammar of a finite `Decimal` literal:
surrounding whitespace, then
`sign? (digits "."? digits? | "." digits) ((e|E) sign? digits)?` — the
grammar of `Decimal(text)` for finite values (the underscore digit grouping
and the non-monetary special values `NaN`/`Infinity` that `Decimal` also
accepts are outside the model; no invoice-text call site can produce
them). -/
def decimal_lit (s0 : Str) : Option Dec :=
  let s := py_strip s0
  let (sign, s1) := take_sign s
  let (intds, s2) := take_digits s1
  match s2 with
  | '.' :: rest =>
    let (fracds, s3) := take_digits rest
    if intds = [] && fracds = [] then none
    else parse_exp_suffix (sign * (digits_val (intds ++ fracds) : ℤ)) fracds.length s3
  | _ =>
    if intds = [] then none
    else parse_exp_suffix (sign * (digits_val intds : ℤ)) 0 s2

/-- The sign-and-residue computation of `_parse_decimal`
(`processing.py` 250-258) on the pre-stripped text: handles the
parenthesized-negative form, deletes `$` and `,`, re-strips, and handles a
leading `-`; parentheses and dash each independently force negation. -/
def parse_sign_residue (cleaned : Str) : Bool × Str :=
  let paren := cleaned.head? = some '(' && cleaned.getLast? = some ')'
  let c1 := if paren then (cleaned.drop 1).dropLast else cleaned
  let c2 := py_strip (delete_char ',' (delete_char '$' c1))
  let dash := c2.head? = some '-'
  (paren || dash, if dash then c2.drop 1 else c2)

/-- The residue parse of `_parse_decimal` after the empty check
(`processing.py` 250-265). -/
def parse_decimal_cleaned (cleaned : Str) : Option Dec :=
  match parse_sign_residue cleaned with
  | (neg, residue) =>
    match decimal_lit residue with
    | none => none
    | some d => some (if neg then d.neg else d)

/-- `_parse_decimal` (`processing.py` 243-265): strip, compute the sign and
the residue, parse the residue as a decimal; any failure yields `none`
instead of raising. -/
def parse_decimal (value : Option Str) : Option Dec :=
  match value with
  | none => none
  | some v =>
    let cleaned := py_strip v
    if cleaned = [] then none
    else parse_decimal_cleaned cleaned

/-! ## Header matching (`processing.py` 215-231) -/

/-- A character kept verbatim by `_normalize_header`: the class `[a-z0-9]`
(after lowercasing). -/
def is_lower_alnum (c : Char) : Bool :=
  ('a' ≤ c && c ≤ 'z') || ('0' ≤ c && c ≤ '9')

/-- Replaces each maximal run of characters outside `[a-z0-9]` with a single
underscore (`re.sub(r"[^a-z0-9]+", "_", value)`); the flag records whether a
run is open. -/
def collapse_nonalnum_aux (inRun : Bool) : Str → Str
  | [] => []
  | c :: rest =>
    if is_lower_alnum c then c :: collapse_nonalnum_aux false rest
    else if inRun then collapse_nonalnum_aux true rest
    else '_' :: collapse_nonalnum_aux true rest

/-- Run-collapsing substitution, starting outside a run. -/
def collapse_nonalnum (s : Str) : Str := collapse_nonalnum_aux false s

/-- Python `str.strip("_")`. -/
def strip_underscores (s : Str) : Str :=
  ((s.dropWhile (· = '_')).reverse.dropWhile (· = '_')).reverse

/-- `_normalize_header` (`processing.py` 215-218). -/
def normalize_header (value : Str) : Str :=
  strip_underscores (collapse_nonalnum (py_lower (py_strip value)))

/-- Insert-or-overwrite on an association list, keeping the position of the
first insertion: the semantics of repeated keys in a Python dict
comprehension. -/
def upsert_assoc (k v : Str) : List (Str × Str) → List (Str × Str)
  | [] => [(k, v)]
  | (k0, v0) :: rest =>
    if k0 = k then (k0, v) :: rest else (k0, v0) :: upsert_assoc k v rest

/-- The dict `{_normalize_header(h): h for h in headers}`. -/
def norm_map (headers : List Str) : List (Str × Str) :=
  headers.foldl (fun acc h => upsert_assoc (normalize_header h) h acc) []

/-- Association-list lookup (Python dict access). -/
def assoc_lookup (k : Str) : List (Str × Str) → Option Str
  | [] => none
  | (k0, v0) :: rest => if k0 = k then some v0 else assoc_lookup k rest

/-- `_match_header` (`processing.py` 221-231): exact pass over the aliases
against the normalization map, then a fallback pass over the map entries
using bidirectional substring containment with any alias. -/
def match_header (headers aliases : List Str) : Option Str :=
  let normalized := norm_map headers
  match aliases.findSome? (fun a => assoc_lookup a normalized) with
  | some original => some original
  | none =>
    normalized.findSome? fun p =>
      if aliases.any (fun a => contains_sub a p.1 || contains_sub p.1 a) then
        some p.2
      else none

/-! ## Integricom text normalization and canonicalization
(`processing.py` 824-827 and 846-910) -/

/-- Replaces each maximal whitespace run by one space
(`re.sub(r"\s+", " ", cleaned)`). -/
def collapse_ws_aux (inRun : Bool) : Str → Str
  | [] => []
  | c :: rest =>
    if is_py_space c then
      if inRun then collapse_ws_aux true rest
      else ' ' :: collapse_ws_aux true rest
    else c :: collapse_ws_aux false rest

/-- Whitespace-run collapsing, starting outside a run. -/
def collapse_ws (s : Str) : Str := collapse_ws_aux false s

/-- `_normalize_integricom_text` (`processing.py` 824-827): en dash to
hyphen, whitespace collapse, trim. -/
def normalize_integricom_text (value : Str) : Str :=
  py_strip (collapse_ws (replace_char '–' '-' value))

/-- Default branch name shared by all vendors. -/
def HOME_OFFICE : Str := str "Home Office"

/-- `INTEGRICOM_DISTRICT_BRANCHES` (`processing.py` 48-62). -/
def INTEGRICOM_DISTRICT_BRANCHES : List Str :=
  [str "Acworth", str "Canton", str "Charleston", str "Cobb",
   str "Color Burst", str "Doraville", str "Destin", str "Fort Walton",
   str "Pensacola", str "Nashville", str "Savannah", str "St. Pete",
   str "Tampa"]

/-- `INTEGRICOM_MANAGED_INTERNET_BRANCHES` (`processing.py` 63). -/
def INTEGRICOM_MANAGED_INTERNET_BRANCHES : List Str :=
  HOME_OFFICE :: INTEGRICOM_DISTRICT_BRANCHES

/-- `INTEGRICOM_KNOWN_BRANCHES` (`processing.py` 64-69). -/
def INTEGRICOM_KNOWN_BRANCHES : List Str :=
  HOME_OFFICE :: (INTEGRICOM_DISTRICT_BRANCHES ++ [str "Sugar Hill", str "Grayson"])

/-- Whether the normalized text contains the heuristic key. -/
def has_sub (k : String) (normalized : Str) : Bool := contains_sub (str k) normalized

/-- The ordered heuristic rule table of `_canonical_integricom_line`
(`processing.py` 846-909): each entry pairs the substring test on the
lowered normalized description with the canonical name it yields; the
rules are listed in the order of the if-chain of the source, so the first
matching rule wins exactly as the chain does. -/
def canonical_heuristic_rules : List ((Str → Bool) × Str) :=
  [(has_sub "managed user/workstation", str "Workstation"),
   (fun n => has_sub "managed firewall" n && !has_sub "security subscription" n, str "NetWatch360 Managed Firewall"),
   (has_sub "managed network device", str "NetWatch360 Managed Network Device"),
   (has_sub "managed internet", str "NetWatch360 Managed Internet"),
   (has_sub "firewall security subscription, main office", str "Firewall Security Subscription Main Office"),
   (has_sub "firewall security subscription, district office", str "Firewall Security Subscription District Office"),
   (fun n => has_sub "latest fw bought in 2025" n || has_sub "fw bought in 2025" n, str "Firewall Security Subscription Latest 2025"),
   (has_sub "ticketing system user license", str "Ticketing System User License"),
   (has_sub "documentation system", str "Documentation System License"),
   (fun n => has_sub "monthly recurring block" n || has_sub "monthly block hours" n, str "Monthly Block Hours"),
   (has_sub "dark web monitoring", str "Dark Web Monitoring"),
   (has_sub "it automation tool", str "IT Automation Tool"),
   (has_sub "teams rooms pro", str "Teams Rooms Pro"),
   (has_sub "netwatch360 mac", str "NetWatch360 MAC"),
   (fun n => has_sub "managed server" n && has_sub "netwatch360" n, str "NetWatch360 Managed Server"),
   (has_sub "dropbox business standard", str "Dropbox Business Standard"),
   (has_sub "office 365 cloud backup", str "Office 365 Cloud Backup"),
   (has_sub "server image backup, cloud", str "DP Server Image Backup Cloud"),
   (fun n => has_sub "business premium" n && has_sub "microsoft 365" n, str "Microsoft Business Premium Annual"),
   (has_sub "power bi pro", str "Power BI Pro"),
   (has_sub "project plan 3", str "Project Plan 3"),
   (has_sub "exchange online p1", str "Exchange Online P1 Annual"),
   (has_sub "microsoft f3", str "Microsoft F3 Annual"),
   (fun n => has_sub "exchange online plan 2" n || has_sub "exchange online p2" n, str "Exchange Online P2 Annual"),
   (has_sub "teams essentials", str "Microsoft Teams Essentials NCE Annual"),
   (has_sub "microsoft e5", str "M365 Microsoft E5"),
   (has_sub "intune", str "M365 Intune"),
   (has_sub "prorated m365", str "Prorated M365"),
   (has_sub "teams audio conferencing", str "Teams Audio Conferencing"),
   (has_sub "aws cloud server", str "AWS Cloud Server"),
   (fun n => has_sub "keeper enterprise" n || decide (n = str "keeper"), str "Keeper Enterprise Password Manager")]

/-- The heuristic chain of `_canonical_integricom_line`: the first matching
rule yields its canonical name, otherwise the given fallback text. -/
def canonical_from_normalized (normalized fallback : Str) : Str :=
  match canonical_heuristic_rules.findSome?
      (fun r => if r.1 normalized then some r.2 else none) with
  | some name => name
  | none => fallback

/-- `_canonical_integricom_line` applied: the heuristics read the lowered
normalized text, the fallback is the normalized text itself. -/
def canonical_integricom_line (description : Str) : Str :=
  canonical_from_normalized (py_lower (normalize_integricom_text description))
    (normalize_integricom_text description)

/-- The fixed vocabulary the heuristics of `_canonical_integricom_line` can
map into (every right-hand side of the if-chain except the fallback). -/
def INTEGRICOM_CANONICAL_NAMES : List Str :=
  [str "Workstation", str "NetWatch360 Managed Firewall",
   str "NetWatch360 Managed Network Device", str "NetWatch360 Managed Internet",
   str "Firewall Security Subscription Main Office",
   str "Firewall Security Subscription District Office",
   str "Firewall Security Subscription Latest 2025",
   str "Ticketing System User License", str "Documentation System License",
   str "Monthly Block Hours", str "Dark Web Monitoring",
   str "IT Automation Tool", str "Teams Rooms Pro", str "NetWatch360 MAC",
   str "NetWatch360 Managed Server", str "Dropbox Business Standard",
   str "Office 365 Cloud Backup", str "DP Server Image Backup Cloud",
   str "Microsoft Business Premium Annual", str "Power BI Pro",
   str "Project Plan 3", str "Exchange Online P1 Annual",
   str "Microsoft F3 Annual", str "Exchange Online P2 Annual",
   str "Microsoft Teams Essentials NCE Annual", str "M365 Microsoft E5",
   str "M365 Intune", str "Prorated M365", str "Teams Audio Conferencing",
   str "AWS Cloud Server", str "Keeper Enterprise Password Manager"]

/-! ## Generic dict on association lists

Python dict semantics: insertion order is kept, re-assignment overwrites the
value in place. -/

/-- Insert-or-overwrite keeping first-insertion position (`d[k] = v`). -/
def dict_set {κ α : Type} [DecidableEq κ] (k : κ) (v : α) :
    List (κ × α) → List (κ × α)
  | [] => [(k, v)]
  | (k0, v0) :: rest =>
    if k0 = k then (k0, v) :: rest else (k0, v0) :: dict_set k v rest

/-- Dict lookup (`d.get(k)`). -/
def dict_get {κ α : Type} [DecidableEq κ] (k : κ) : List (κ × α) → Option α
  | [] => none
  | (k0, v0) :: rest => if k0 = k then some v0 else dict_get k rest

/-- Decimal digits of a natural number (`str(n)` for the f-strings in
warnings). -/
def nat_str (n : ℕ) : Str := (toString n).data

/-- Decimal digits of an integer. -/
def int_str (n : ℤ) : Str := (toString n).data

/-! ## `build_breakdown` and `apply_home_office_adjustment`
(`processing.py` 367-382 and 1663-1693) -/

/-- An allocation row (`{"source_file", "branch", "license", "amount"}`):
the atomic unit consumed by the breakdown reducer. -/
structure ARow where
  source_file : Str
  branch : Str
  license : Str
  amount : Dec
deriving DecidableEq, Repr

/-- A summary row; `total_amount` is held in cents (the source stores
`float(total.quantize(Decimal("0.01")))`, always a two-fraction-digit
value in range, which the cents integer represents exactly). -/
structure SummaryRow where
  branch : Str
  license : Str
  total_amount : ℤ
deriving DecidableEq, Repr

/-- One `grouped[key] += row["amount"]` step on the insertion-ordered dict
(`defaultdict(lambda: Decimal("0"))`). -/
def upsert_amount (k : Str × Str) (a : Dec) :
    List ((Str × Str) × Dec) → List ((Str × Str) × Dec)
  | [] => [(k, Dec.add ⟨0, 0⟩ a)]
  | (k0, v0) :: rest =>
    if k0 = k then (k0, v0.add a) :: rest else (k0, v0) :: upsert_amount k a rest

/-- Python tuple comparison `(a.1, a.2) <= (b.1, b.2)` on string pairs. -/
def key_le (a b : Str × Str) : Bool :=
  str_lt a.1 b.1 || (a.1 = b.1 && str_le a.2 b.2)

/-- The grouping loop of `build_breakdown` (`processing.py` 367-371):
group rows by `(branch, license)` summing exactly in decimal on the
insertion-ordered dict. -/
def group_rows (rows : List ARow) : List ((Str × Str) × Dec) :=
  rows.foldl (fun acc r => upsert_amount (r.branch, r.license) r.amount acc) []

/-- The sorted summary of the grouped totals. -/
def build_breakdown (rows : List ARow) : List SummaryRow :=
  (List.insertionSort (fun x y : (Str × Str) × Dec => key_le x.1 y.1 = true)
    (group_rows rows)).map fun p => ⟨p.1.1, p.1.2, p.2.cents⟩

/-- Adds `adjustment` to the first row matching `(home, lic)`, in place;
`none` when no row matches (`processing.py` 1674-1678, 1690-1691: the add is
`quantize`d, which is the identity on cent values). -/
def bump_first (home lic : Str) (adjustment : ℤ) :
    List SummaryRow → Option (List SummaryRow)
  | [] => none
  | row :: rest =>
    if row.branch = home && row.license = lic then
      some ({ row with total_amount := row.total_amount + adjustment } :: rest)
    else
      match bump_first home lic adjustment rest with
      | some rest2 => some (row :: rest2)
      | none => none

/-- `apply_home_office_adjustment` (`processing.py` 1663-1693): no-op on a
zero adjustment; otherwise find-or-create the `(home_office_name,
license_name)` row, add the adjustment to it (a fresh row starts at `0.0`,
so it ends up holding exactly the adjustment), and re-sort by
`(branch, license)`. -/
def apply_home_office_adjustment (summary : List SummaryRow) (adjustment : ℤ)
    (license_name home_office_name : Str) : List SummaryRow :=
  if adjustment = 0 then summary
  else
    let updated :=
      match bump_first home_office_name license_name adjustment summary with
      | some l => l
      | none => summary ++ [⟨home_office_name, license_name, adjustment⟩]
    List.insertionSort
      (fun x y : SummaryRow => key_le (x.branch, x.license) (y.branch, y.license) = true)
      updated

/-! ## Integricom invoice lines and the fixed-line allocator
(`processing.py` 160-167, 1327-1505) -/

/-- `IntegricomInvoiceLine` (`processing.py` 160-167).  The parser quantizes
every numeric field to two fraction digits before constructing a line. -/
structure IntegricomInvoiceLine where
  description : Str
  canonical_name : Str
  quantity : Dec
  unit_price : Dec
  amount : Dec
deriving DecidableEq, Repr

/-- `BranchPrompt` dict built by `add_branch_prompt`
(`processing.py` 1353-1373). -/
structure BranchPrompt where
  line_key : Str
  prompt_index : ℕ
  license : Str
  unit_price : Dec
  quantity : ℤ
  already_assigned_branches : List Str
  available_branches : List Str
  branch : Str
  validation_error : Str
deriving DecidableEq, Repr

/-- A resolved `{line_key, prompt_index, branch}` submission
(`main.py` 220-265 guarantees `prompt_index` is an int). -/
structure BranchItemUpdate where
  line_key : Str
  prompt_index : ℤ
  branch : Str
deriving DecidableEq, Repr

/-- `branch_assignment_updates_map` construction
(`processing.py` 1520-1531). -/
def build_updates_map (l : List BranchItemUpdate) : List ((Str × ℕ) × Str) :=
  l.foldl
    (fun m u =>
      let lk := py_strip u.line_key
      let br := py_strip u.branch
      if lk = [] || u.prompt_index < 1 then m
      else dict_set (lk, u.prompt_index.toNat) br m)
    []

/-- `add_row` (`processing.py` 1340-1351): quantize, drop exact zeros, send a
blank branch to Home Office. -/
def add_row (canonical : Str) (rows : List ARow) (branch : Str) (amount : Dec) :
    List ARow :=
  let amount := amount.quantize2
  if amount.val_eq ⟨0, 2⟩ then rows
  else rows ++ [⟨str "invoice", if branch = [] then HOME_OFFICE else branch, canonical, amount⟩]

/-- `add_branch_prompt` (`processing.py` 1353-1373). -/
def add_branch_prompt (line_key canonical : Str) (unit : Dec) (qty_int : ℤ)
    (prompts : List BranchPrompt) (prompt_index : ℕ) (already : List Str)
    (submitted : Str) (verr : Str) : List BranchPrompt :=
  let available := INTEGRICOM_KNOWN_BRANCHES.filter fun b => ¬ already.contains b
  prompts ++ [⟨line_key, prompt_index, canonical, unit, qty_int, already, available, submitted, verr⟩]

/-- Loop state of the extra-units loop in `allocate_by_unit_sequence`
(`processing.py` 1387-1413).  The source keeps both
`assigned_branch_order` (a list) and `assigned_branch_set` (a set holding
exactly the same branches); list membership models the set test. -/
structure SeqState where
  assigned_order : List Str
  rows : List ARow
  warnings : List Str
  prompts : List BranchPrompt
deriving DecidableEq, Repr

/-- One iteration of the extras loop (`processing.py` 1388-1413): an absent
or blank submission emits a prompt; a submission naming an already assigned
branch re-emits the prompt with a validation error and a warning, consuming
nothing; a fresh branch gets one unit and joins the assigned set. -/
def seq_extra_step (line_key canonical : Str) (unit : Dec) (qty_int : ℤ)
    (updates : List ((Str × ℕ) × Str)) (s : SeqState) (prompt_index : ℕ) :
    SeqState :=
  let submitted := py_strip ((dict_get (line_key, prompt_index) updates).getD [])
  if submitted = [] then
    { s with prompts := (add_branch_prompt line_key canonical unit qty_int
        s.prompts prompt_index s.assigned_order [] []) }
  else if s.assigned_order.contains submitted then
    let err := submitted ++ str " is already assigned for this charge."
    let warn := canonical ++ str ": branch '" ++ submitted ++
      str "' is already assigned; choose a different branch for extra license " ++
      nat_str prompt_index ++ str "."
    { s with
      warnings := s.warnings ++ [warn],
      prompts := (add_branch_prompt line_key canonical unit qty_int
        s.prompts prompt_index s.assigned_order submitted err) }
  else
    { s with
      rows := add_row canonical s.rows submitted unit,
      assigned_order := s.assigned_order ++ [submitted] }

/-- The prompt indices `range(1, extra_units + 1)`. -/
def prompt_range (extra_units : ℕ) : List ℕ := (List.range extra_units).map (· + 1)

/-- `allocate_by_unit_sequence` (`processing.py` 1375-1424): one unit at
`unit` to each of the first `min(max(qty, 0), N)` branches in list order,
then the extras loop over resolved submissions, then — only when no prompt
is pending — the residual amount to Home Office. -/
def allocate_by_unit_sequence (line_key canonical : Str) (qty_int : ℤ)
    (unit total : Dec) (updates : List ((Str × ℕ) × Str))
    (branches : List Str) : List ARow × List Str × List BranchPrompt :=
  let assigned_units : ℤ := min (max qty_int 0) (branches.length : ℤ)
  let assigned_branch_order := branches.take assigned_units.toNat
  let rows0 := assigned_branch_order.foldl (fun rs b => add_row canonical rs b unit) []
  let warnings0 :=
    if qty_int < (branches.length : ℤ) then
      [canonical ++ str ": invoice quantity is " ++ int_str qty_int ++
        str "; template allocation used the first " ++ int_str assigned_units ++
        str " branches."]
    else []
  let extra_units : ℤ := max (qty_int - (branches.length : ℤ)) 0
  let init : SeqState := ⟨assigned_branch_order, rows0, warnings0, []⟩
  let final := (prompt_range extra_units.toNat).foldl
    (seq_extra_step line_key canonical unit qty_int updates) init
  if final.prompts ≠ [] then
    (final.rows,
     final.warnings ++ [canonical ++ str ": " ++ nat_str final.prompts.length ++
       str " extra branch assignment(s) required before this charge can be finalized."],
     final.prompts)
  else
    let assigned_amount := (unit.mul ⟨(final.assigned_order.length : ℤ), 0⟩).quantize2
    let remainder := (total.sub assigned_amount).quantize2
    if ¬ (remainder.val_eq ⟨0, 2⟩) then
      (add_row canonical final.rows HOME_OFFICE remainder, final.warnings, [])
    else
      (final.rows, final.warnings, [])

/-- The `fixed_home_office` set (`processing.py` 1426-1445). -/
def fixed_home_office : List Str :=
  [str "Ticketing System User License", str "Documentation System License",
   str "Monthly Block Hours", str "Dark Web Monitoring",
   str "IT Automation Tool", str "Teams Rooms Pro", str "NetWatch360 MAC",
   str "NetWatch360 Managed Server", str "Dropbox Business Standard",
   str "DP Server Image Backup Cloud", str "Power BI Pro",
   str "Microsoft Teams Essentials NCE Annual", str "M365 Microsoft E5",
   str "M365 Intune", str "Prorated M365", str "AWS Cloud Server",
   str "Keeper Enterprise Password Manager", str "Teams Audio Conferencing"]

/-- The branch list of the district-office firewall split
(`processing.py` 1476-1490). -/
def FSS_DISTRICT_BRANCHES : List Str :=
  [str "Canton", str "Cobb", str "Doraville", str "Destin",
   str "Fort Walton", str "Tampa", str "Savannah", str "Charleston",
   str "Nashville", str "Color Burst", str "Acworth"]

/-- `_allocate_integricom_fixed_line` (`processing.py` 1327-1505): the
per-canonical-name rule table (fixed Home Office, sequential distribution,
the Sugar Hill split, single-branch rules, and the warned Home Office
fallback for unrecognized names). -/
def allocate_integricom_fixed_line (line : IntegricomInvoiceLine)
    (line_key : Str) (updates : List ((Str × ℕ) × Str)) :
    List ARow × List Str × List BranchPrompt :=
  let qty_int := line.quantity.trunc_int
  let unit := line.unit_price.quantize2
  let total := line.amount.quantize2
  if fixed_home_office.contains line.canonical_name then
    (add_row line.canonical_name [] HOME_OFFICE total, [], [])
  else if line.canonical_name = str "NetWatch360 Managed Firewall" then
    allocate_by_unit_sequence line_key line.canonical_name qty_int unit total
      updates INTEGRICOM_DISTRICT_BRANCHES
  else if line.canonical_name = str "NetWatch360 Managed Network Device" then
    (add_row line.canonical_name [] HOME_OFFICE total, [], [])
  else if line.canonical_name = str "NetWatch360 Managed Internet" then
    allocate_by_unit_sequence line_key line.canonical_name qty_int unit total
      updates INTEGRICOM_MANAGED_INTERNET_BRANCHES
  else if line.canonical_name = str "Firewall Security Subscription Main Office" then
    let sugar_hill_amount : Dec := ⟨9700, 2⟩
    if sugar_hill_amount.val_le total then
      (add_row line.canonical_name
        (add_row line.canonical_name [] (str "Sugar Hill") sugar_hill_amount)
        HOME_OFFICE (total.sub sugar_hill_amount), [], [])
    else
      (add_row line.canonical_name [] HOME_OFFICE total,
       [line.canonical_name ++
         str ": invoice amount was below expected split baseline; allocated entirely to Home Office."],
       [])
  else if line.canonical_name = str "Firewall Security Subscription District Office" then
    allocate_by_unit_sequence line_key line.canonical_name qty_int unit total
      updates FSS_DISTRICT_BRANCHES
  else if line.canonical_name = str "Firewall Security Subscription Latest 2025" then
    (add_row line.canonical_name [] (str "St. Pete") total, [], [])
  else if line.canonical_name = str "Project Plan 3" then
    (add_row line.canonical_name [] (str "Sugar Hill") total, [], [])
  else
    (add_row line.canonical_name [] HOME_OFFICE total,
     [line.canonical_name ++
       str ": no Integricom allocation rule configured; amount allocated to Home Office."],
     [])

/-! ## Integricom export users and the user-allocation builder
(`processing.py` 178-186, 1301-1324, 1508-1660) -/

/-- `IntegricomExportUser` (`processing.py` 178-186). -/
structure IntegricomExportUser where
  source_file : Str
  email : Str
  first_name : Str
  last_name : Str
  office : Str
  default_branch : Str
  licenses : List Str
deriving DecidableEq, Repr

/-- A directory profile as handed to the engine
(`main.py` `_directory_to_profile_map`, 301-309). -/
structure Profile where
  branch : Str
  first_name : Str
  last_name : Str
deriving DecidableEq, Repr

/-- License name constants (`processing.py` 71-75). -/
def INTEGRICOM_LICENSE_BP : Str := str "Microsoft 365 Business Premium"

/-- `INTEGRICOM_LICENSE_P1`. -/
def INTEGRICOM_LICENSE_P1 : Str := str "Exchange Online (Plan 1)"

/-- `INTEGRICOM_LICENSE_P2`. -/
def INTEGRICOM_LICENSE_P2 : Str := str "Exchange Online (Plan 2)"

/-- `INTEGRICOM_LICENSE_F3`. -/
def INTEGRICOM_LICENSE_F3 : Str := str "Microsoft 365 F3"

/-- `INTEGRICOM_LICENSE_TEAMS_ESSENTIALS`. -/
def INTEGRICOM_LICENSE_TEAMS_ESSENTIALS : Str := str "Microsoft Teams Essentials"

/-- `_integricom_user_matches_rule` (`processing.py` 1301-1324): the
matching predicate of each dynamically-allocated canonical line over a
user's license token set. -/
def integricom_user_matches_rule (user : IntegricomExportUser)
    (canonical_line : Str) : Bool :=
  let tokens := user.licenses
  if canonical_line = str "Workstation" then
    [INTEGRICOM_LICENSE_BP, INTEGRICOM_LICENSE_P1, INTEGRICOM_LICENSE_P2,
     INTEGRICOM_LICENSE_F3, INTEGRICOM_LICENSE_TEAMS_ESSENTIALS].any
      (fun t => tokens.contains t)
  else if canonical_line = str "Office 365 Cloud Backup" then
    tokens.contains INTEGRICOM_LICENSE_BP || tokens.contains INTEGRICOM_LICENSE_P1
  else if canonical_line = str "Microsoft Business Premium Annual" then
    tokens.contains INTEGRICOM_LICENSE_BP
  else if canonical_line = str "Exchange Online P1 Annual" then
    tokens.contains INTEGRICOM_LICENSE_P1
  else if canonical_line = str "Microsoft F3 Annual" then
    tokens.contains INTEGRICOM_LICENSE_F3
  else if canonical_line = str "Exchange Online P2 Annual" then
    tokens.contains INTEGRICOM_LICENSE_P2
  else false

/-- The per-user accumulation entry of `user_rows_map`
(`processing.py` 1545-1553). -/
structure UserRow where
  email : Str
  first_name : Str
  last_name : Str
  branch : Str
  licenses : List Str
  user_total : Dec
  known_user : Bool
deriving DecidableEq, Repr

/-- The first loop of `build_integricom_user_allocations`
(`processing.py` 1533-1555): seeds `user_rows_map` (last write wins per
email) and collects unresolved emails. -/
def build_user_rows_map (users : List IntegricomExportUser)
    (user_directory : List (Str × Profile)) :
    List (Str × UserRow) × List Str :=
  users.foldl
    (fun acc user =>
      let (m, unresolved) := acc
      let email := py_lower (py_strip user.email)
      if email = [] then acc
      else
        let profile := dict_get email user_directory
        let pb := match profile with | some p => p.branch | none => []
        let branch := py_strip (if pb = [] then user.default_branch else pb)
        let fn0 := py_strip user.first_name
        let ln0 := py_strip user.last_name
        let fn := match profile with
          | some p => if fn0 = [] then py_strip p.first_name else fn0
          | none => fn0
        let ln := match profile with
          | some p => if ln0 = [] then py_strip p.last_name else ln0
          | none => ln0
        let known := match profile with
          | some p => py_strip p.branch ≠ []
          | none => False
        let m2 := dict_set email ⟨email, fn, ln, branch, [], ⟨0, 2⟩, known⟩ m
        let unresolved2 :=
          if branch = [] ∧ ¬ unresolved.contains email then unresolved ++ [email]
          else unresolved
        (m2, unresolved2))
    ([], [])

/-- `dynamic_licenses` (`processing.py` 1557-1564). -/
def dynamic_licenses : List Str :=
  [str "Workstation", str "Office 365 Cloud Backup",
   str "Microsoft Business Premium Annual", str "Exchange Online P1 Annual",
   str "Microsoft F3 Annual", str "Exchange Online P2 Annual"]

/-- One matched user of a dynamic line (`processing.py` 1571-1586):
update the user's entry and, when the user has a branch, emit one unit of
`unit_price` to it. -/
def dyn_user_step (canonical : Str) (unit_price : Dec)
    (acc : List (Str × UserRow) × List ARow) (user : IntegricomExportUser) :
    List (Str × UserRow) × List ARow :=
  let (m, rows) := acc
  match dict_get user.email m with
  | none => acc
  | some entry =>
    let entry2 := { entry with
      licenses :=
        if entry.licenses.contains canonical then entry.licenses
        else entry.licenses ++ [canonical],
      user_total := entry.user_total.add unit_price }
    let rows2 :=
      if entry.branch ≠ [] then
        rows ++ [⟨str "invoice", entry.branch, canonical, unit_price⟩]
      else rows
    (dict_set user.email entry2 m, rows2)

/-- The rows (user units and optional delta), delta row, warnings and
updated user map produced for one dynamically-matched invoice line
(`processing.py` 1568-1610). -/
def process_dynamic_line (users : List IntegricomExportUser)
    (m : List (Str × UserRow)) (line : IntegricomInvoiceLine) :
    List (Str × UserRow) × List ARow × Option ARow × List Str :=
  let matched_users := users.filter
    (fun u => integricom_user_matches_rule u line.canonical_name)
  let matched_count := matched_users.length
  let fold := matched_users.foldl
    (dyn_user_step line.canonical_name line.unit_price) (m, [])
  let invoice_qty := line.quantity.trunc_int
  let warnings :=
    if (matched_count : ℤ) ≠ invoice_qty then
      [line.canonical_name ++ str ": invoice quantity is " ++ int_str invoice_qty ++
        str ", matched users are " ++ nat_str matched_count ++
        str "; difference allocated to Home Office."]
    else []
  let allocated_total := (line.unit_price.mul ⟨(matched_count : ℤ), 0⟩).quantize2
  let remainder := (line.amount.sub allocated_total).quantize2
  let delta :=
    if ¬ (remainder.val_eq ⟨0, 2⟩) then
      some (⟨str "invoice", HOME_OFFICE, line.canonical_name, remainder⟩ : ARow)
    else none
  (fold.1, fold.2, delta, warnings)

/-- Accumulated state of the per-line loop of
`build_integricom_user_allocations` (`processing.py` 1566-1628). -/
structure AllocState where
  line_rows : List ARow
  non_user_raw : List (ARow × Str)
  warnings : List Str
  prompts : List BranchPrompt
  user_map : List (Str × UserRow)
deriving DecidableEq, Repr

/-- Processes one `(line_index, line)` pair (`processing.py` 1566-1628):
dynamic lines run per-user matching plus the Home Office delta; all other
lines go through `_allocate_integricom_fixed_line`. -/
def process_invoice_line (users : List IntegricomExportUser)
    (updates : List ((Str × ℕ) × Str)) (s : AllocState)
    (idx_line : ℕ × IntegricomInvoiceLine) : AllocState :=
  let line := idx_line.2
  let line_key := nat_str idx_line.1 ++ str ":" ++ line.canonical_name
  if dynamic_licenses.contains line.canonical_name then
    let r := process_dynamic_line users s.user_map line
    { s with
      user_map := r.1,
      warnings := s.warnings ++ r.2.2.2,
      line_rows := s.line_rows ++ r.2.1 ++ r.2.2.1.toList,
      non_user_raw := s.non_user_raw ++ (r.2.2.1.toList.map (fun row => (row, str "Invoice Delta"))) }
  else
    let fr := allocate_integricom_fixed_line line line_key updates
    { s with
      line_rows := s.line_rows ++ fr.1,
      non_user_raw := s.non_user_raw ++ fr.1.map (fun row => (row, str "Fixed Branch Item")),
      warnings := s.warnings ++ fr.2.1,
      prompts := s.prompts ++ fr.2.2 }

/-- Pairs each invoice line with its 1-based ordinal (`enumerate(...,
start=1)`); the line key is `"<ordinal>:<canonical_name>"`. -/
def enumerate_from_one {α : Type} (l : List α) : List (ℕ × α) :=
  (List.range l.length).map (· + 1) |>.zip l

/-- A grouped non-user output row (`processing.py` 1630-1644); the total is
in cents. -/
structure NonUserRow where
  branch : Str
  license : Str
  allocation_type : Str
  total_amount : ℤ
deriving DecidableEq, Repr

/-- Python tuple `<=` on string triples. -/
def key3_le (a b : Str × Str × Str) : Bool :=
  str_lt a.1 b.1 || (a.1 = b.1 && key_le a.2 b.2)

/-- Grouping of the raw non-user rows by
`(branch, license, allocation_type)` with exact decimal sums
(`processing.py` 1630-1644). -/
def group_non_user_rows (raw : List (ARow × Str)) : List NonUserRow :=
  let grouped := raw.foldl
    (fun acc rt =>
      (dict_set (rt.1.branch, rt.1.license, rt.2)
        ((dict_get (rt.1.branch, rt.1.license, rt.2) acc).getD ⟨0, 0⟩ |>.add rt.1.amount)
        acc))
    ([] : List ((Str × Str × Str) × Dec))
  (List.insertionSort (fun x y : (Str × Str × Str) × Dec => key3_le x.1 y.1 = true) grouped).map
    fun p => ⟨p.1.1, p.1.2.1, p.1.2.2, p.2.cents⟩

/-- Sort key of the final user rows (`(last_name, first_name, email)`,
`processing.py` 1647). -/
def user_key_le (a b : UserRow) : Bool :=
  str_lt a.last_name b.last_name ||
    (a.last_name = b.last_name &&
      (str_lt a.first_name b.first_name ||
        (a.first_name = b.first_name && str_le a.email b.email)))

/-- Final per-user rows (`processing.py` 1646-1658): sorted map values with
the quantized total and `known_user` recomputed from the branch (the string
join of `license_list` and the float conversion are presentation only). -/
def finalize_user_rows (m : List (Str × UserRow)) : List UserRow :=
  (List.insertionSort (fun a b : Str × UserRow => user_key_le a.2 b.2 = true) m).map
    fun p => { p.2 with
      user_total := p.2.user_total.quantize2,
      known_user := p.2.branch ≠ [] }

/-- `build_integricom_user_allocations` (`processing.py` 1508-1660):
returns `(line_rows, user_rows, non_user_rows, warnings,
unresolved_emails, unresolved_branch_prompts)`. -/
def build_integricom_user_allocations (users : List IntegricomExportUser)
    (user_directory : List (Str × Profile))
    (invoice_lines : List IntegricomInvoiceLine)
    (branch_item_updates : List BranchItemUpdate) :
    List ARow × List UserRow × List NonUserRow × List Str × List Str ×
      List BranchPrompt :=
  let updates := build_updates_map branch_item_updates
  let start := build_user_rows_map users user_directory
  let final := (enumerate_from_one invoice_lines).foldl
    (process_invoice_line users updates) ⟨[], [], [], [], start.1⟩
  (final.line_rows, finalize_user_rows final.user_map,
   group_non_user_rows final.non_user_raw, final.warnings,
   start.2, final.prompts)

/-! ## Integricom seat-license export rows (`processing.py` 819-821 and
1223-1298)

CSV decoding and header-role resolution are the CSV collaborator's concern;
a data row reaches the engine as its five resolved fields. -/

/-- The five resolved fields of one data row (`row.get(col) or ""` for each
resolved column; a missing optional column yields the empty string). -/
structure CsvRow where
  email : Str
  first_name : Str
  last_name : Str
  office : Str
  licenses : Str
deriving DecidableEq, Repr

/-- `INTEGRICOM_BRANCH_ALIASES` (`processing.py` 43-47). -/
def INTEGRICOM_BRANCH_ALIASES : List (Str × Str) :=
  [([], HOME_OFFICE), (str "Corporate", HOME_OFFICE),
   (str "Process Smart", HOME_OFFICE)]

/-- `_normalize_integricom_branch` (`processing.py` 819-821):
`INTEGRICOM_BRANCH_ALIASES.get(raw, raw or INTEGRICOM_HOME_OFFICE)`. -/
def normalize_integricom_branch (office : Str) : Str :=
  let raw := py_strip office
  match dict_get raw INTEGRICOM_BRANCH_ALIASES with
  | some b => b
  | none => if raw = [] then HOME_OFFICE else raw

/-- Outcome of one data row of the seat-license export. -/
inductive RowOutcome where
  | emitted (u : IntegricomExportUser)
  | skipped_warn (w : Str)
  | skipped_silent
deriving DecidableEq, Repr

/-- The body of the row loop of `parse_integricom_export_csv`
(`processing.py` 1260-1291): a missing email skips with a warning; a guest
email (`#ext#`), a blank or `Unlicensed` license field, and a field with no
usable tokens skip silently; otherwise the row becomes one export user whose
licenses are the trimmed non-empty `+`-separated tokens. -/
def process_export_row (filename : Str) (line_number : ℕ) (row : CsvRow) :
    RowOutcome :=
  let email := py_lower (py_strip row.email)
  if email = [] then
    .skipped_warn (filename ++ str ": row " ++ nat_str line_number ++
      str " skipped (missing email).")
  else if contains_sub (str "#ext#") email then .skipped_silent
  else
    let licenses_raw := py_strip row.licenses
    if licenses_raw = [] || py_lower licenses_raw = str "unlicensed" then
      .skipped_silent
    else
      let tokens := ((py_split '+' licenses_raw).map py_strip).filter (· ≠ [])
      if tokens = [] then .skipped_silent
      else
        let office := py_strip row.office
        .emitted ⟨filename, email, py_strip row.first_name, py_strip row.last_name,
          office, normalize_integricom_branch office, tokens⟩

/-- The full row loop of `parse_integricom_export_csv` (`processing.py`
1257-1291), rows enumerated from line 2: returns
`(users, rows_skipped, warnings)`. -/
def parse_integricom_export_rows (filename : Str) (rows : List CsvRow) :
    List IntegricomExportUser × ℕ × List Str :=
  ((enumerate_from_one rows).foldl
    (fun acc nr =>
      let (users, skipped, warnings) := acc
      match process_export_row filename (nr.1 + 1) nr.2 with
      | .emitted u => (users ++ [u], skipped, warnings)
      | .skipped_warn w => (users, skipped + 1, warnings ++ [w])
      | .skipped_silent => (users, skipped + 1, warnings))
    ([], 0, []))

/-! ## Invoice line-item scanner (`processing.py` 830-843 and 957-1012)

The PDF text collaborator hands the scanner a list of already extracted text
lines; the scanner is the pure loop of `parse_integricom_invoice`. -/

/-- `_is_integricom_section_header` (`processing.py` 830-843). -/
def is_integricom_section_header (line : Str) : Bool :=
  let lowered := py_lower line
  [str "products & other charges quantity price amount",
   str "netwatch360 limited:", str "dataprotect 360 backup products:",
   str "microsoft 365 products:", str "dropbox products:",
   str "cloud server:", str "password manager:"].any
    (fun m => contains_sub m lowered)

/-- Matches the money-token pattern `[0-9][0-9,]*\.[0-9]{2}` at the head of
`s`, returning the token and the rest.  The character class `[0-9,]` cannot
contain `.`, so the match is deterministic (no backtracking can change
it). -/
def match_money_at (s : Str) : Option (Str × Str) :=
  match s with
  | [] => none
  | c :: rest =>
    if c.isDigit then
      let mid := rest.takeWhile fun ch => ch.isDigit || ch = ','
      let after := rest.dropWhile fun ch => ch.isDigit || ch = ','
      match after with
      | '.' :: a :: b :: rest2 =>
        if a.isDigit && b.isDigit then some (c :: mid ++ '.' :: [a, b], rest2)
        else none
      | _ => none
    else none

/-- Matches `\s+\$?` at the head of `s` (greedy, and deterministic because
the next pattern element starts with a digit). -/
def match_ws_dollar (s : Str) : Option Str :=
  let ws := s.takeWhile is_py_space
  let rest := s.dropWhile is_py_space
  if ws = [] then none
  else
    match rest with
    | '$' :: r => some r
    | _ => some rest

/-- Matches `qty \s+\$? price \s+\$? amount` against all of `s` (the
trailing part of the row regex, `$`-anchored). -/
def tail_match (s : Str) : Option (Str × Str × Str) :=
  match match_money_at s with
  | none => none
  | some (qty, r1) =>
    match match_ws_dollar r1 with
    | none => none
    | some r2 =>
      match match_money_at r2 with
      | none => none
      | some (price, r3) =>
        match match_ws_dollar r3 with
        | none => none
        | some r4 =>
          match match_money_at r4 with
          | none => none
          | some (amount, r5) =>
            if r5 = [] then some (qty, price, amount) else none

/-- The lazy `(?P<desc>.*?)` prefix: tries the shortest description first,
exactly like the regex engine. -/
def row_match_aux (desc_rev : Str) (s : Str) : Option (Str × Str × Str × Str) :=
  match tail_match s with
  | some (q, p, a) => some (desc_rev.reverse, q, p, a)
  | none =>
    match s with
    | [] => none
    | c :: rest => row_match_aux (c :: desc_rev) rest

/-- The row pattern of `parse_integricom_invoice` (`processing.py`
957-959). -/
def row_match (line : Str) : Option (Str × Str × Str × Str) :=
  row_match_aux [] line

/-- Python `" ".join(parts)`. -/
def join_spaces (parts : List Str) : Str := List.intercalate [' '] parts

/-- Scanner state: the description buffer plus the accumulated line items
and warnings. -/
structure ScanState where
  buffer : List Str
  items : List IntegricomInvoiceLine
  warnings : List Str
deriving DecidableEq, Repr

/-- The line-item commit step of the scanner (`processing.py` 995-1012):
an empty joined description only clears the buffer; otherwise the three
numeric fields are parsed and the line item is appended, or a warning is
recorded when one of them does not parse. -/
def scan_commit (filename : Str) (s : ScanState) (description : Str)
    (qty price amount : Str) : ScanState :=
  if description = [] then { s with buffer := [] }
  else
    match parse_decimal (some qty), parse_decimal (some price),
      parse_decimal (some amount) with
    | some q, some p, some a =>
      { buffer := [],
        items := s.items ++ [⟨description, canonical_integricom_line description,
          q.quantize2, p.quantize2, a.quantize2⟩],
        warnings := s.warnings }
    | _, _, _ =>
      { s with
        buffer := [],
        warnings := s.warnings ++ [filename ++
          str ": could not parse numeric amounts for line '" ++ description ++ str "'."] }

/-- One line of the buffered line-item scanner (`processing.py` 960-1012):
header/trailer markers reset the buffer; a line matching the row pattern
closes out one line item whose description joins the buffered lines with the
inline fragment; other lines are buffered. -/
def scan_invoice_line (filename : Str) (s : ScanState) (raw_line : Str) :
    ScanState :=
  let line := normalize_integricom_text raw_line
  if line = [] then s
  else
    let lowered := py_lower line
    if is_integricom_section_header line then { s with buffer := [] }
    else if starts_with (str "total products & other") lowered then { s with buffer := [] }
    else if starts_with (str "invoice subtotal:") lowered ||
        starts_with (str "sales tax:") lowered then { s with buffer := [] }
    else if starts_with (str "invoice total:") lowered ||
        starts_with (str "payments:") lowered ||
        starts_with (str "credits:") lowered then { s with buffer := [] }
    else if starts_with (str "balance due:") lowered ||
        starts_with (str "please pay invoices at") lowered then { s with buffer := [] }
    else
      match row_match line with
      | some (desc, qty, price, amount) =>
        let inline_desc := normalize_integricom_text desc
        scan_commit filename s
          (if inline_desc ≠ [] then
            normalize_integricom_text (join_spaces (s.buffer ++ [inline_desc]))
          else normalize_integricom_text (join_spaces s.buffer))
          qty price amount
      | none => { s with buffer := s.buffer ++ [line] }

/-- The scanner loop of `parse_integricom_invoice` over the extracted text
lines: returns the line items and the scan warnings. -/
def scan_integricom_invoice_lines (filename : Str) (text_lines : List Str) :
    List IntegricomInvoiceLine × List Str :=
  let final := text_lines.foldl (scan_invoice_line filename) ⟨[], [], []⟩
  (final.items, final.warnings)

/-! ## The Integricom analysis pass and its finalization gate
(`main.py` 516-655, `integricom_directory.py` 84-151) -/

/-- A submitted directory update (`_parse_user_updates`, already stripped
and lowercased by `main.py` 172-201; `upsert` re-normalizes anyway). -/
structure UserUpdate where
  email : Str
  first_name : Str
  last_name : Str
  branch : Str
deriving DecidableEq, Repr

/-- `upsert_integricom_users` (`integricom_directory.py` 84-122): skip blank
emails and blank branches, insert or fully overwrite the profile keyed by
the normalized email. -/
def upsert_directory (dir : List (Str × Profile)) (rows : List UserUpdate) :
    List (Str × Profile) :=
  rows.foldl
    (fun d u =>
      let email := py_lower (py_strip u.email)
      if email = [] then d
      else
        let br := py_strip u.branch
        if br = [] then d
        else dict_set email ⟨br, py_strip u.first_name, py_strip u.last_name⟩ d)
    dir

/-- The outcome of one `_analyze_integricom` invocation, restricted to what
the claimed property observes: the directory after the pass, the emails
passed to `touch_seen_integricom_users` (empty when the call never
happens), whether the pass finalized, and the returned allocation data. -/
structure PassResult where
  directory : List (Str × Profile)
  touched : List Str
  finalized : Bool
  unresolved_emails : List Str
  prompts : List BranchPrompt
  user_rows : List UserRow
  line_rows : List ARow
deriving DecidableEq, Repr

/-- The directory writes of `_analyze_integricom` that precede the gate
(`main.py` 557-586): persist submitted branch-bearing updates, then seed a
directory row for every export user absent from the directory (branch =
`default_branch`). -/
def seeded_directory (dir0 : List (Str × Profile))
    (submitted_updates : List UserUpdate)
    (export_users : List IntegricomExportUser) : List (Str × Profile) :=
  let dir1 := upsert_directory dir0
    (submitted_updates.filter fun u => u.branch ≠ [])
  let seeds := (export_users.filter fun u => (dict_get u.email dir1).isNone).map
    fun u => (⟨u.email, u.first_name, u.last_name, u.default_branch⟩ : UserUpdate)
  upsert_directory dir1 seeds

/-- The directory-effect skeleton of `_analyze_integricom` (`main.py`
554-655): the pre-gate writes of `seeded_directory`, then the allocation,
and only when no unresolved email and no unresolved prompt remains the
`touch_seen_integricom_users` call on the export users; otherwise the pass
returns the unresolved sets and the partial rows untouched. -/
def analyze_integricom_pass (dir0 : List (Str × Profile))
    (export_users : List IntegricomExportUser)
    (submitted_updates : List UserUpdate)
    (item_updates : List BranchItemUpdate)
    (invoice_lines : List IntegricomInvoiceLine) : PassResult :=
  let dir2 := seeded_directory dir0 submitted_updates export_users
  let res := build_integricom_user_allocations export_users dir2 invoice_lines item_updates
  let unresolved_emails := res.2.2.2.2.1
  let prompts := res.2.2.2.2.2
  if unresolved_emails ≠ [] ∨ prompts ≠ [] then
    ⟨dir2, [], false, unresolved_emails, prompts, res.2.1, res.1⟩
  else
    ⟨dir2, export_users.map (fun u => u.email), true, [], [], res.2.1, res.1⟩

/-! ## Statement-level helpers -/

/-- The exact decimal sum of the amounts of the rows in a
`(branch, license)` group, accumulated in row order exactly as the
`defaultdict` of `build_breakdown` does. -/
def sum_amounts (rows : List ARow) (k : Str × Str) : Dec :=
  rows.foldl (fun acc r => if (r.branch, r.license) = k then acc.add r.amount else acc) ⟨0, 0⟩

/-- The same accumulation started from an arbitrary value. -/
def group_fold (v : Dec) (rows : List ARow) (k : Str × Str) : Dec :=
  rows.foldl (fun acc r => if (r.branch, r.license) = k then acc.add r.amount else acc) v

/-- The canonical names with an explicit rule in
`_allocate_integricom_fixed_line` (the `fixed_home_office` set plus the
eight specifically tested names). -/
def integricom_rule_names : List Str :=
  fixed_home_office ++
    [str "NetWatch360 Managed Firewall", str "NetWatch360 Managed Network Device",
     str "NetWatch360 Managed Internet",
     str "Firewall Security Subscription Main Office",
     str "Firewall Security Subscription District Office",
     str "Firewall Security Subscription Latest 2025", str "Project Plan 3"]

/-- Key order on summary rows (`sorted` by `(branch, license)`). -/
def summary_le (a b : SummaryRow) : Prop :=
  key_le (a.branch, a.license) (b.branch, b.license) = true

/-- Index of the first summary row matching `(home, lic)` — the row the
linear scan of `apply_home_office_adjustment` picks. -/
def find_adj_idx (home lic : Str) : List SummaryRow → Option ℕ
  | [] => none
  | row :: rest =>
    if row.branch = home ∧ row.license = lic then some 0
    else (find_adj_idx home lic rest).map (· + 1)

/-- The allocation row `add_row` produces for branch `b` at unit price
`u`. -/
def unit_row (canonical b : Str) (u : Dec) : ARow :=
  ⟨str "invoice", b, canonical, u.quantize2⟩

/-- The prompt `add_branch_prompt` emits for an unanswered extra unit. -/
def open_prompt (line_key canonical : Str) (u : Dec) (qty_int : ℤ)
    (assigned : List Str) (i : ℕ) : BranchPrompt :=
  ⟨line_key, i, canonical, u, qty_int, assigned,
    INTEGRICOM_KNOWN_BRANCHES.filter (fun b => ¬ assigned.contains b), [], []⟩

/-- Whether a row outcome emitted a user. -/
def outcome_is_emitted : RowOutcome → Bool
  | .emitted _ => true
  | _ => false

/-- The user of an emitted outcome. -/
def outcome_user : RowOutcome → Option IntegricomExportUser
  | .emitted u => some u
  | _ => none

/-- The warning of a warned skip. -/
def outcome_warning : RowOutcome → Option Str
  | .skipped_warn w => some w
  | _ => none

/-- Concrete user roster used to exercise the dynamic-matching theorem:
exactly two of the three users carry a Workstation-rule license. -/
def c3_users : List IntegricomExportUser :=
  [⟨str "f", str "a@x.com", [], [], [], HOME_OFFICE, [INTEGRICOM_LICENSE_BP]⟩,
   ⟨str "f", str "b@x.com", [], [], [], HOME_OFFICE, [INTEGRICOM_LICENSE_P1]⟩,
   ⟨str "f", str "c@x.com", [], [], [], HOME_OFFICE, [str "Other"]⟩]

/-- Concrete Workstation invoice line: quantity 4, unit price 25.00,
amount 100.00. -/
def c3_line : IntegricomInvoiceLine :=
  ⟨str "Workstation", str "Workstation", ⟨400, 2⟩, ⟨2500, 2⟩, ⟨10000, 2⟩⟩

/-- Concrete export user absent from an empty directory, used to exercise
the pre-gate seeding of the analysis pass. -/
def c7_user : IntegricomExportUser :=
  ⟨str "f.csv", str "a@b.com", str "A", str "B", [], HOME_OFFICE, [INTEGRICOM_LICENSE_BP]⟩

/-- Concrete managed-firewall line whose quantity 14 exceeds the 13 known
district branches, so the pass is left with an unresolved prompt. -/
def c7_fwline : IntegricomInvoiceLine :=
  ⟨str "Managed firewall", str "NetWatch360 Managed Firewall", ⟨1400, 2⟩, ⟨1000, 2⟩, ⟨14000, 2⟩⟩

/-! ## Shared order and decimal lemmas -/

theorem str_lt_irrefl (a : Str) : str_lt a a = false := by
  induction a with
  | nil => rfl
  | cons x xs ih => simp [str_lt, ih]

theorem str_lt_trans : ∀ {a b c : Str},
    str_lt a b = true → str_lt b c = true → str_lt a c = true := by
  intro a
  induction a with
  | nil =>
    intro b c hab hbc
    cases b with
    | nil => simp [str_lt] at hab
    | cons y ys =>
      cases c with
      | nil => simp [str_lt] at hbc
      | cons z zs => rfl
  | cons x xs ih =>
    intro b c hab hbc
    cases b with
    | nil => simp [str_lt] at hab
    | cons y ys =>
      cases c with
      | nil => simp [str_lt] at hbc
      | cons z zs =>
        simp only [str_lt] at hab hbc ⊢
        by_cases hxy : x = y
        · subst hxy
          simp only [if_pos rfl] at hab
          by_cases hxz : x = z
          · subst hxz
            simp only [if_pos rfl] at hbc ⊢
            exact ih hab hbc
          · simp only [if_neg hxz] at hbc ⊢
            exact hbc
        · simp only [if_neg hxy] at hab
          by_cases hyz : y = z
          · subst hyz
            simp only [if_neg hxy]
            exact hab
          · simp only [if_neg hyz] at hbc
            have hlt : x < z := lt_trans (of_decide_eq_true hab) (of_decide_eq_true hbc)
            have hxz : x ≠ z := ne_of_lt hlt
            simp only [if_neg hxz]
            exact decide_eq_true hlt

theorem str_lt_total : ∀ a b : Str, str_lt a b = true ∨ str_lt b a = true ∨ a = b := by
  intro a
  induction a with
  | nil =>
    intro b
    cases b with
    | nil => right; right; rfl
    | cons y ys => left; rfl
  | cons x xs ih =>
    intro b
    cases b with
    | nil => right; left; rfl
    | cons y ys =>
      by_cases hxy : x = y
      · subst hxy
        rcases ih ys with h | h | h
        · left; simp [str_lt, h]
        · right; left; simp [str_lt, h]
        · right; right; rw [h]
      · rcases lt_or_gt_of_ne hxy with h | h
        · left; simp [str_lt, hxy, h]
        · right; left
          have hyx : y ≠ x := fun e => hxy e.symm
          simp [str_lt, hyx, h]

theorem str_lt_asymm {a b : Str} (h : str_lt a b = true) : str_lt b a = false := by
  by_contra hc
  have hba : str_lt b a = true := by
    cases hval : str_lt b a
    · exact absurd hval hc
    · rfl
  have : str_lt a a = true := str_lt_trans h hba
  rw [str_lt_irrefl] at this
  exact Bool.false_ne_true this

theorem key_le_refl (a : Str × Str) : key_le a a = true := by
  have h2 : str_le a.2 a.2 = true := by simp [str_le]
  simp [key_le, h2]

theorem key_le_total (a b : Str × Str) : key_le a b = true ∨ key_le b a = true := by
  rcases str_lt_total a.1 b.1 with h | h | h
  · left; simp [key_le, h]
  · right; simp [key_le, h]
  · rcases str_lt_total a.2 b.2 with h2 | h2 | h2
    · left; simp [key_le, h, str_le, h2]
    · right; simp [key_le, h.symm, str_le, h2]
    · left; simp [key_le, h, str_le, h2]

theorem key_le_trans {a b c : Str × Str} (hab : key_le a b = true)
    (hbc : key_le b c = true) : key_le a c = true := by
  simp only [key_le, Bool.or_eq_true, Bool.and_eq_true, decide_eq_true_eq] at hab hbc ⊢
  rcases hab with hab | ⟨hab1, hab2⟩
  · rcases hbc with hbc | ⟨hbc1, hbc2⟩
    · exact Or.inl (str_lt_trans hab hbc)
    · rw [← hbc1]; exact Or.inl hab
  · rcases hbc with hbc | ⟨hbc1, hbc2⟩
    · rw [hab1]; exact Or.inl hbc
    · right
      refine ⟨hab1.trans hbc1, ?_⟩
      simp only [str_le, Bool.or_eq_true, decide_eq_true_eq] at hab2 hbc2 ⊢
      rcases hab2 with h | h
      · rcases hbc2 with h2 | h2
        · exact Or.inl (str_lt_trans h h2)
        · rw [← h2]; exact Or.inl h
      · rw [h]; exact hbc2

theorem key_le_antisymm {a b : Str × Str} (hab : key_le a b = true)
    (hba : key_le b a = true) : a = b := by
  simp only [key_le, Bool.or_eq_true, Bool.and_eq_true, decide_eq_true_eq] at hab hba
  rcases hab with hab | ⟨hab1, hab2⟩
  · rcases hba with hba | ⟨hba1, hba2⟩
    · have h2 := str_lt_asymm hab
      rw [hba] at h2
      cases h2
    · rw [hba1] at hab
      rw [str_lt_irrefl] at hab
      exact absurd hab Bool.false_ne_true
  · rcases hba with hba | ⟨hba1, hba2⟩
    · rw [hab1] at hba
      rw [str_lt_irrefl] at hba
      exact absurd hba Bool.false_ne_true
    · simp only [str_le, Bool.or_eq_true, decide_eq_true_eq] at hab2 hba2
      rcases hab2 with h | h
      · rcases hba2 with h2 | h2
        · have h3 := str_lt_asymm h
          rw [h2] at h3
          cases h3
        · exact Prod.ext hab1 (by rw [h2])
      · exact Prod.ext hab1 h

theorem dec_cents_two (c : ℤ) : Dec.cents ⟨c, 2⟩ = c := by
  simp [Dec.cents]

theorem dec_quantize2_two (c : ℤ) : Dec.quantize2 ⟨c, 2⟩ = ⟨c, 2⟩ := by
  simp [Dec.quantize2, dec_cents_two]

theorem dec_val_eq_zero_two (c : ℤ) : Dec.val_eq ⟨c, 2⟩ ⟨0, 2⟩ = decide (c = 0) := by
  simp [Dec.val_eq, Dec.scale_to]

theorem dec_scale_to_trans (x : Dec) {e1 e2 : ℕ} (h1 : x.e ≤ e1) (h2 : e1 ≤ e2) :
    x.scale_to e1 * 10 ^ (e2 - e1) = x.scale_to e2 := by
  simp only [Dec.scale_to]
  rw [mul_assoc, ← pow_add]
  have he : e1 - x.e + (e2 - e1) = e2 - x.e := by omega
  rw [he]

theorem dec_add_comm (x y : Dec) : x.add y = y.add x := by
  simp only [Dec.add]
  rw [max_comm x.e y.e, add_comm]

theorem dec_add_assoc (x y z : Dec) : (x.add y).add z = x.add (y.add z) := by
  simp only [Dec.add]
  have hmax : max (max x.e y.e) z.e = max x.e (max y.e z.e) := max_assoc x.e y.e z.e
  refine Dec.mk.injEq .. ▸ ?_
  constructor
  · simp only [Dec.scale_to]
    rw [hmax]
    set e := max x.e (max y.e z.e) with he
    have hx : x.e ≤ e := le_max_left _ _
    have hxy : max x.e y.e ≤ e := by
      rw [he]; exact max_le (le_max_left _ _) (le_trans (le_max_left _ _) (le_max_right _ _))
    have hyz : max y.e z.e ≤ e := le_max_right _ _
    have hy : y.e ≤ e := le_trans (le_max_left _ _) hyz
    have hz : z.e ≤ e := le_trans (le_max_right _ _) hyz
    have e1 : (x.scale_to (max x.e y.e) + y.scale_to (max x.e y.e)) * 10 ^ (e - max x.e y.e)
        = x.scale_to e + y.scale_to e := by
      rw [add_mul, dec_scale_to_trans x (le_max_left _ _) hxy,
        dec_scale_to_trans y (le_max_right _ _) hxy]
    have e2 : (y.scale_to (max y.e z.e) + z.scale_to (max y.e z.e)) * 10 ^ (e - max y.e z.e)
        = y.scale_to e + z.scale_to e := by
      rw [add_mul, dec_scale_to_trans y (le_max_left _ _) hyz,
        dec_scale_to_trans z (le_max_right _ _) hyz]
    calc ((⟨x.scale_to (max x.e y.e) + y.scale_to (max x.e y.e), max x.e y.e⟩ : Dec)).scale_to e
        + z.scale_to e
      = (x.scale_to (max x.e y.e) + y.scale_to (max x.e y.e)) * 10 ^ (e - max x.e y.e)
        + z.scale_to e := rfl
    _ = x.scale_to e + y.scale_to e + z.scale_to e := by rw [e1]
    _ = x.scale_to e + (y.scale_to e + z.scale_to e) := by ring
    _ = x.scale_to e
        + (y.scale_to (max y.e z.e) + z.scale_to (max y.e z.e)) * 10 ^ (e - max y.e z.e) := by
        rw [e2]
    _ = x.scale_to e + ((⟨y.scale_to (max y.e z.e) + z.scale_to (max y.e z.e), max y.e z.e⟩ : Dec)).scale_to e := rfl
  · exact hmax

/-! ## C2: rejected duplicate submissions in the sequential distribution -/

/-- C2: for every sequentially-distributed invoice line and every resolved
submission for one of its extra units, if the submitted branch is already
assigned to this line (initially or as a previously accepted extra), no
allocation row is added for that unit, the same `BranchPrompt` (same
`line_key` and `prompt_index`) is re-emitted with a non-empty
`validation_error`, and the submission is not consumed: the assigned set and
the rows are unchanged. -/
theorem C2_duplicate_submission_rejected
    (line_key canonical : Str) (unit : Dec) (qty_int : ℤ)
    (updates : List ((Str × ℕ) × Str)) (s : SeqState) (i : ℕ) (b : Str)
    (hsub : py_strip ((dict_get (line_key, i) updates).getD []) = b)
    (hne : b ≠ [])
    (hdup : s.assigned_order.contains b = true) :
    seq_extra_step line_key canonical unit qty_int updates s i =
      { s with
        warnings := s.warnings ++ [canonical ++ str ": branch '" ++ b ++
          str "' is already assigned; choose a different branch for extra license " ++
          nat_str i ++ str "."],
        prompts := s.prompts ++ [⟨line_key, i, canonical, unit, qty_int, s.assigned_order,
          INTEGRICOM_KNOWN_BRANCHES.filter (fun br => ¬ s.assigned_order.contains br),
          b, b ++ str " is already assigned for this charge."⟩] } ∧
    (b ++ str " is already assigned for this charge.") ≠ [] := by
  constructor
  · simp only [seq_extra_step, hsub, if_neg hne, hdup, if_pos, add_branch_prompt]
  · cases b with
    | nil => exact absurd rfl hne
    | cons c cs => simp

/-- Witness for C2 at a concrete state: the firewall line with `Acworth`
already assigned and a submission naming `Acworth` again. -/
theorem C2_duplicate_submission_rejected_witness :
    py_strip ((dict_get (str "1:NetWatch360 Managed Firewall", 1)
        [((str "1:NetWatch360 Managed Firewall", 1), str "Acworth")]).getD []) =
      str "Acworth" ∧
    str "Acworth" ≠ [] ∧
    ([str "Acworth", str "Canton"] : List Str).contains (str "Acworth") = true ∧
    seq_extra_step (str "1:NetWatch360 Managed Firewall")
        (str "NetWatch360 Managed Firewall") ⟨1000, 2⟩ 3
        [((str "1:NetWatch360 Managed Firewall", 1), str "Acworth")]
        ⟨[str "Acworth", str "Canton"], [], [], []⟩ 1 =
      { assigned_order := [str "Acworth", str "Canton"], rows := [],
        warnings := [str "NetWatch360 Managed Firewall" ++ str ": branch '" ++
          str "Acworth" ++
          str "' is already assigned; choose a different branch for extra license " ++
          nat_str 1 ++ str "."],
        prompts := [⟨str "1:NetWatch360 Managed Firewall", 1,
          str "NetWatch360 Managed Firewall", ⟨1000, 2⟩, 3,
          [str "Acworth", str "Canton"],
          INTEGRICOM_KNOWN_BRANCHES.filter
            (fun br => ¬ ([str "Acworth", str "Canton"] : List Str).contains br),
          str "Acworth", str "Acworth" ++ str " is already assigned for this charge."⟩] } ∧
    (str "Acworth" ++ str " is already assigned for this charge.") ≠ [] := by
  refine ⟨by decide, by decide, by decide, ?_⟩
  exact C2_duplicate_submission_rejected (str "1:NetWatch360 Managed Firewall")
    (str "NetWatch360 Managed Firewall") ⟨1000, 2⟩ 3
    [((str "1:NetWatch360 Managed Firewall", 1), str "Acworth")]
    ⟨[str "Acworth", str "Canton"], [], [], []⟩ 1 (str "Acworth")
    (by decide) (by decide) (by decide)

/-! ## C5: the Home Office adjustment is a single-row frame change -/

theorem bump_first_spec (home lic : Str) (d : ℤ) :
    ∀ l : List SummaryRow,
      (match find_adj_idx home lic l with
       | none => bump_first home lic d l = none
       | some i => ∃ row, l.get? i = some row ∧ row.branch = home ∧
           row.license = lic ∧
           bump_first home lic d l =
             some (l.set i { row with total_amount := row.total_amount + d })) := by
  intro l
  induction l with
  | nil => simp [find_adj_idx, bump_first]
  | cons x xs ih =>
    by_cases hx : x.branch = home ∧ x.license = lic
    · simp only [find_adj_idx, if_pos hx]
      exact ⟨x, rfl, hx.1, hx.2, by simp [bump_first, hx.1, hx.2]⟩
    · simp only [find_adj_idx, if_neg hx]
      have hbx : (decide (x.branch = home) && decide (x.license = lic)) = false := by
        by_cases h1 : x.branch = home
        · have h2 : x.license ≠ lic := fun h => hx ⟨h1, h⟩
          simp [h1, h2]
        · simp [h1]
      cases hfi : find_adj_idx home lic xs with
      | none =>
        rw [hfi] at ih
        have ih2 : bump_first home lic d xs = none := by simpa using ih
        simp [bump_first, hbx, ih2]
      | some i =>
        rw [hfi] at ih
        obtain ⟨row, hget, hb, hl, hbump⟩ := ih
        simp only [Option.map_some']
        refine ⟨row, by simpa using hget, hb, hl, ?_⟩
        simp only [bump_first, hbx, hbump]
        rfl

/-- C5: `apply_home_office_adjustment` with zero delta returns the summary
unchanged; with nonzero delta the result is, up to the re-sort by
`(branch, license)`, the input with exactly the first `(home_office_name,
license_name)` row changed by exactly `delta` — every other row untouched —
or, when no such row exists, the input plus one created row holding exactly
`delta`. -/
theorem C5_home_office_adjustment
    (summary : List SummaryRow) (delta : ℤ) (lic home : Str) :
    (delta = 0 → apply_home_office_adjustment summary delta lic home = summary) ∧
    (delta ≠ 0 →
      List.Sorted summary_le (apply_home_office_adjustment summary delta lic home) ∧
      (match find_adj_idx home lic summary with
       | none =>
         (apply_home_office_adjustment summary delta lic home).Perm
           (summary ++ [⟨home, lic, delta⟩])
       | some i =>
         ∃ row, summary.get? i = some row ∧ row.branch = home ∧ row.license = lic ∧
           (apply_home_office_adjustment summary delta lic home).Perm
             (summary.set i { row with total_amount := row.total_amount + delta }))) := by
  constructor
  · intro h0
    simp [apply_home_office_adjustment, h0]
  · intro hne
    haveI instTot : IsTotal SummaryRow
        (fun x y : SummaryRow => key_le (x.branch, x.license) (y.branch, y.license) = true) :=
      ⟨fun a b => key_le_total _ _⟩
    haveI instTrans : IsTrans SummaryRow
        (fun x y : SummaryRow => key_le (x.branch, x.license) (y.branch, y.license) = true) :=
      ⟨fun _ _ _ hab hbc => key_le_trans hab hbc⟩
    constructor
    · simp only [apply_home_office_adjustment, if_neg hne]
      exact List.sorted_insertionSort
        (fun x y : SummaryRow => key_le (x.branch, x.license) (y.branch, y.license) = true) _
    · have hspec := bump_first_spec home lic delta summary
      cases hfi : find_adj_idx home lic summary with
      | none =>
        rw [hfi] at hspec
        simp only [apply_home_office_adjustment, if_neg hne, hspec]
        exact List.perm_insertionSort _ _
      | some i =>
        rw [hfi] at hspec
        obtain ⟨row, hget, hb, hl, hbump⟩ := hspec
        refine ⟨row, hget, hb, hl, ?_⟩
        simp only [apply_home_office_adjustment, if_neg hne, hbump]
        exact List.perm_insertionSort _ _

/-- Witness for C5 at the repository's own fixture: Home Office 50.00 and
Acworth 10.00 with a 30.00 adjustment. -/
theorem C5_home_office_adjustment_witness :
    ((30 : ℤ) ≠ 0 →
      List.Sorted summary_le
        (apply_home_office_adjustment
          [⟨HOME_OFFICE, str "Hexnode UEM Cloud Pro Edition", 5000⟩,
           ⟨str "Acworth", str "Hexnode UEM Cloud Pro Edition", 1000⟩]
          30 (str "Hexnode UEM Cloud Pro Edition") HOME_OFFICE) ∧
      (match find_adj_idx HOME_OFFICE (str "Hexnode UEM Cloud Pro Edition")
          [⟨HOME_OFFICE, str "Hexnode UEM Cloud Pro Edition", 5000⟩,
           ⟨str "Acworth", str "Hexnode UEM Cloud Pro Edition", 1000⟩] with
       | none =>
         (apply_home_office_adjustment
           [⟨HOME_OFFICE, str "Hexnode UEM Cloud Pro Edition", 5000⟩,
            ⟨str "Acworth", str "Hexnode UEM Cloud Pro Edition", 1000⟩]
           30 (str "Hexnode UEM Cloud Pro Edition") HOME_OFFICE).Perm
           ([⟨HOME_OFFICE, str "Hexnode UEM Cloud Pro Edition", 5000⟩,
             ⟨str "Acworth", str "Hexnode UEM Cloud Pro Edition", 1000⟩] ++
            [⟨HOME_OFFICE, str "Hexnode UEM Cloud Pro Edition", 30⟩])
       | some i =>
         ∃ row, ([⟨HOME_OFFICE, str "Hexnode UEM Cloud Pro Edition", 5000⟩,
                 ⟨str "Acworth", str "Hexnode UEM Cloud Pro Edition", 1000⟩] :
                 List SummaryRow).get? i = some row ∧
           row.branch = HOME_OFFICE ∧
           row.license = str "Hexnode UEM Cloud Pro Edition" ∧
           (apply_home_office_adjustment
             [⟨HOME_OFFICE, str "Hexnode UEM Cloud Pro Edition", 5000⟩,
              ⟨str "Acworth", str "Hexnode UEM Cloud Pro Edition", 1000⟩]
             30 (str "Hexnode UEM Cloud Pro Edition") HOME_OFFICE).Perm
             (([⟨HOME_OFFICE, str "Hexnode UEM Cloud Pro Edition", 5000⟩,
               ⟨str "Acworth", str "Hexnode UEM Cloud Pro Edition", 1000⟩] :
               List SummaryRow).set i
               { row with total_amount := row.total_amount + 30 }))) := by
  exact (C5_home_office_adjustment
    [⟨HOME_OFFICE, str "Hexnode UEM Cloud Pro Edition", 5000⟩,
     ⟨str "Acworth", str "Hexnode UEM Cloud Pro Edition", 1000⟩]
    30 (str "Hexnode UEM Cloud Pro Edition") HOME_OFFICE).2

/-! ## C8: seat-license export row handling -/

/-- C8 counterexample: a data row with a present email and the explicit
`Unlicensed` marker is skipped and counted in `rows_skipped`, but silently —
no warning is produced, contradicting the claim's "with a human-readable
warning for every other skipped row" (only rows with a missing email warn;
`processing.py` 1270-1278). -/
theorem C8_counterexample :
    parse_integricom_export_rows (str "m365.csv")
      [⟨str "user3@example.com", str "User", str "Three", str "Home Office",
        str "Unlicensed"⟩] = ([], 1, []) := by
  decide

theorem export_fold_spec (filename : Str) :
    ∀ (ps : List (ℕ × CsvRow)) (users : List IntegricomExportUser) (k : ℕ)
      (ws : List Str),
      ps.foldl
        (fun acc nr =>
          let (users, skipped, warnings) := acc
          match process_export_row filename (nr.1 + 1) nr.2 with
          | .emitted u => (users ++ [u], skipped, warnings)
          | .skipped_warn w => (users, skipped + 1, warnings ++ [w])
          | .skipped_silent => (users, skipped + 1, warnings))
        (users, k, ws) =
      (users ++ ps.filterMap
          (fun nr => outcome_user (process_export_row filename (nr.1 + 1) nr.2)),
       k + (ps.filter
          (fun nr => ¬ outcome_is_emitted (process_export_row filename (nr.1 + 1) nr.2))).length,
       ws ++ ps.filterMap
          (fun nr => outcome_warning (process_export_row filename (nr.1 + 1) nr.2))) := by
  intro ps
  induction ps with
  | nil => intro users k ws; simp
  | cons p rest ih =>
    intro users k ws
    cases hout : process_export_row filename (p.1 + 1) p.2 with
    | emitted u =>
      simp only [List.foldl_cons, hout]
      rw [ih]
      simp [outcome_user, outcome_warning, outcome_is_emitted, hout]
    | skipped_warn w =>
      simp only [List.foldl_cons, hout]
      rw [ih]
      simp [outcome_user, outcome_warning, outcome_is_emitted, hout,
        Nat.add_comm, Nat.add_assoc, Nat.add_left_comm]
    | skipped_silent =>
      simp only [List.foldl_cons, hout]
      rw [ih]
      simp [outcome_user, outcome_warning, outcome_is_emitted, hout,
        Nat.add_comm, Nat.add_assoc, Nat.add_left_comm]

/-- C8 (amended): for every data row, the multi-value license field is split
on `+` into trimmed non-empty tokens; rows with no usable tokens, the
explicit `Unlicensed` marker, a guest (`#ext#`) email, or a missing email
are skipped and counted in `rows_skipped` — with a human-readable warning
only for a missing email; unlicensed and token-free rows are skipped as
silently as guest rows.  The parser totals count every skipped row and
collect exactly the warned skips. -/
theorem C8_export_row_handling (filename : Str) (n : ℕ) (row : CsvRow) :
    (py_lower (py_strip row.email) = [] →
      process_export_row filename n row = .skipped_warn (filename ++ str ": row " ++
        nat_str n ++ str " skipped (missing email).")) ∧
    (py_lower (py_strip row.email) ≠ [] →
      contains_sub (str "#ext#") (py_lower (py_strip row.email)) = true →
      process_export_row filename n row = .skipped_silent) ∧
    (py_lower (py_strip row.email) ≠ [] →
      contains_sub (str "#ext#") (py_lower (py_strip row.email)) = false →
      (py_strip row.licenses = [] ∨ py_lower (py_strip row.licenses) = str "unlicensed" ∨
        ((py_split '+' (py_strip row.licenses)).map py_strip).filter (· ≠ []) = []) →
      process_export_row filename n row = .skipped_silent) ∧
    (py_lower (py_strip row.email) ≠ [] →
      contains_sub (str "#ext#") (py_lower (py_strip row.email)) = false →
      py_strip row.licenses ≠ [] →
      py_lower (py_strip row.licenses) ≠ str "unlicensed" →
      ((py_split '+' (py_strip row.licenses)).map py_strip).filter (· ≠ []) ≠ [] →
      process_export_row filename n row =
        .emitted ⟨filename, py_lower (py_strip row.email), py_strip row.first_name,
          py_strip row.last_name, py_strip row.office,
          normalize_integricom_branch (py_strip row.office),
          ((py_split '+' (py_strip row.licenses)).map py_strip).filter (· ≠ [])⟩) ∧
    (∀ rows : List CsvRow,
      parse_integricom_export_rows filename rows =
        ((enumerate_from_one rows).filterMap
            (fun nr => outcome_user (process_export_row filename (nr.1 + 1) nr.2)),
         ((enumerate_from_one rows).filter
            (fun nr => ¬ outcome_is_emitted (process_export_row filename (nr.1 + 1) nr.2))).length,
         (enumerate_from_one rows).filterMap
            (fun nr => outcome_warning (process_export_row filename (nr.1 + 1) nr.2)))) := by
  refine ⟨?_, ?_, ?_, ?_, ?_⟩
  · intro he
    simp [process_export_row, he]
  · intro he hext
    simp [process_export_row, he, hext]
  · intro he hext hlic
    rcases hlic with h | h | h
    · simp [process_export_row, he, hext, h]
    · by_cases hz : py_strip row.licenses = []
      · simp [process_export_row, he, hext, hz]
      · simp [process_export_row, he, hext, hz, h]
    · by_cases hz : py_strip row.licenses = []
      · simp [process_export_row, he, hext, hz]
      · by_cases hu : py_lower (py_strip row.licenses) = str "unlicensed"
        · simp [process_export_row, he, hext, hz, hu]
        · simp [process_export_row, he, hext, hz, hu, h]
          intro x hx
          have hmem := List.filter_eq_nil_iff.mp h (py_strip x)
            (List.mem_map_of_mem py_strip hx)
          simpa using hmem
  · intro he hext hz hu ht
    simp [process_export_row, he, hext, hz, hu, ht]
    by_contra hcon
    push_neg at hcon
    apply ht
    apply List.filter_eq_nil_iff.mpr
    intro y hy
    obtain ⟨x, hx, rfl⟩ := List.mem_map.mp hy
    simpa using hcon x hx
  · intro rows
    simp only [parse_integricom_export_rows]
    rw [export_fold_spec]
    simp

/-- Witness for C8 at the repository's export fixture rows. -/
theorem C8_export_row_handling_witness :
    (py_lower (py_strip (str "user1@example.com")) ≠ [] →
      contains_sub (str "#ext#") (py_lower (py_strip (str "user1@example.com"))) = false →
      py_strip (str "Microsoft 365 Business Premium") ≠ [] →
      py_lower (py_strip (str "Microsoft 365 Business Premium")) ≠ str "unlicensed" →
      ((py_split '+' (py_strip (str "Microsoft 365 Business Premium"))).map py_strip).filter (· ≠ []) ≠ [] →
      process_export_row (str "m365.csv") 2
        ⟨str "user1@example.com", str "User", str "One", str "Acworth",
          str "Microsoft 365 Business Premium"⟩ =
        .emitted ⟨str "m365.csv", py_lower (py_strip (str "user1@example.com")),
          py_strip (str "User"), py_strip (str "One"), py_strip (str "Acworth"),
          normalize_integricom_branch (py_strip (str "Acworth")),
          ((py_split '+' (py_strip (str "Microsoft 365 Business Premium"))).map py_strip).filter (· ≠ [])⟩) ∧
    process_export_row (str "m365.csv") 2
      ⟨str "user1@example.com", str "User", str "One", str "Acworth",
        str "Microsoft 365 Business Premium"⟩ =
      .emitted ⟨str "m365.csv", str "user1@example.com", str "User", str "One",
        str "Acworth", str "Acworth", [str "Microsoft 365 Business Premium"]⟩ := by
  refine ⟨(C8_export_row_handling (str "m365.csv") 2
    ⟨str "user1@example.com", str "User", str "One", str "Acworth",
      str "Microsoft 365 Business Premium"⟩).2.2.2.1, ?_⟩
  have h := (C8_export_row_handling (str "m365.csv") 2
    ⟨str "user1@example.com", str "User", str "One", str "Acworth",
      str "Microsoft 365 Business Premium"⟩).2.2.2.1
    (by decide) (by decide) (by decide) (by decide) (by decide)
  rw [h]
  decide

/-! ## C6: money parsing -/

theorem dropWhile_eq_self_of_forall {p : Char → Bool} :
    ∀ {s : Str}, (∀ c ∈ s, p c = false) → s.dropWhile p = s := by
  intro s h
  cases s with
  | nil => rfl
  | cons c rest =>
    rw [List.dropWhile_cons, h c (List.mem_cons_self c rest)]
    simp

theorem py_strip_eq_self_of_forall {s : Str}
    (h : ∀ c ∈ s, is_py_space c = false) : py_strip s = s := by
  simp only [py_strip]
  rw [dropWhile_eq_self_of_forall h]
  rw [dropWhile_eq_self_of_forall (fun c hc => h c (List.mem_reverse.mp hc))]
  exact List.reverse_reverse s

theorem mem_delete_char {t : Char} {s : Str} {c : Char}
    (h : c ∈ delete_char t s) : c ∈ s :=
  (List.mem_filter.mp h).1

/-- The characters a plain positive money body may contain are never
whitespace. -/
theorem money_body_char_not_space {c : Char}
    (h : c.isDigit = true ∨ c = '.' ∨ c = ',' ∨ c = '$') :
    is_py_space c = false := by
  rcases h with h | h | h | h
  · cases hval : is_py_space c with
    | false => rfl
    | true =>
      exfalso
      simp only [is_py_space, Bool.or_eq_true, decide_eq_true_eq] at hval
      rcases hval with ((((h2 | h2) | h2) | h2) | h2) | h2 <;>
        (subst h2; exact absurd h (by decide))
  · subst h; rfl
  · subst h; rfl
  · subst h; rfl

theorem head_ne_dash_of_chars {s : Str} (hnodash : ∀ c ∈ s, c ≠ '-') :
    ¬ (s.head? = some '-') := by
  cases s with
  | nil => simp
  | cons c rest =>
    have hc := hnodash c (List.mem_cons_self c rest)
    simp [hc]

/-- Residue of a plain positive money body: no negation, `$` and `,`
deleted. -/
theorem psr_plain {body : Str} (hne : body ≠ [])
    (hchars : ∀ c ∈ body, c.isDigit = true ∨ c = '.' ∨ c = ',' ∨ c = '$') :
    parse_sign_residue body = (false, delete_char ',' (delete_char '$' body)) := by
  cases body with
  | nil => exact absurd rfl hne
  | cons b0 rest =>
    have hb0 : b0 ≠ '(' := by
      intro h
      subst h
      rcases hchars '(' (List.mem_cons_self '(' rest) with h | h | h | h <;>
        exact absurd h (by decide)
    have hsub : ∀ c ∈ delete_char ',' (delete_char '$' (b0 :: rest)), c ∈ b0 :: rest :=
      fun c hc => mem_delete_char (mem_delete_char hc)
    have hstrip2 : py_strip (delete_char ',' (delete_char '$' (b0 :: rest))) =
        delete_char ',' (delete_char '$' (b0 :: rest)) :=
      py_strip_eq_self_of_forall
        (fun c hc => money_body_char_not_space (hchars c (hsub c hc)))
    have hdash : ¬ ((delete_char ',' (delete_char '$' (b0 :: rest))).head? = some '-') := by
      refine head_ne_dash_of_chars ?_
      intro c hc h
      subst h
      rcases hchars '-' (hsub '-' hc) with h | h | h | h <;> exact absurd h (by decide)
    simp [parse_sign_residue, hb0, hstrip2, hdash]

/-- Residue of a dash-negated money body. -/
theorem psr_dash {body : Str}
    (hchars : ∀ c ∈ body, c.isDigit = true ∨ c = '.' ∨ c = ',' ∨ c = '$') :
    parse_sign_residue ('-' :: body) = (true, delete_char ',' (delete_char '$' body)) := by
  have hsub : ∀ c ∈ delete_char ',' (delete_char '$' body), c ∈ body :=
    fun c hc => mem_delete_char (mem_delete_char hc)
  have hstrip2 : py_strip ('-' :: delete_char ',' (delete_char '$' body)) =
      '-' :: delete_char ',' (delete_char '$' body) := by
    refine py_strip_eq_self_of_forall ?_
    intro c hc
    rcases List.mem_cons.mp hc with h | h
    · subst h; rfl
    · exact money_body_char_not_space (hchars c (hsub c h))
  have hdel : delete_char ',' (delete_char '$' ('-' :: body)) =
      '-' :: delete_char ',' (delete_char '$' body) := by
    simp [delete_char]
  simp [parse_sign_residue, hdel, hstrip2]

/-- Residue of a parenthesized positive money body: the parentheses are
stripped and force negation. -/
theorem psr_paren_plain {body : Str} (_hne : body ≠ [])
    (hchars : ∀ c ∈ body, c.isDigit = true ∨ c = '.' ∨ c = ',' ∨ c = '$') :
    parse_sign_residue ('(' :: body ++ [')']) =
      (true, delete_char ',' (delete_char '$' body)) := by
  have hlast : ('(' :: body ++ [')']).getLast? = some ')' := by
    rw [show '(' :: body ++ [')'] = ('(' :: body) ++ [')'] by simp]
    exact List.getLast?_concat _
  have hdrop : (('(' :: body ++ [')']).drop 1).dropLast = body := by
    rw [show ('(' :: body ++ [')']).drop 1 = body ++ [')'] by simp]
    exact List.dropLast_concat
  have hsub : ∀ c ∈ delete_char ',' (delete_char '$' body), c ∈ body :=
    fun c hc => mem_delete_char (mem_delete_char hc)
  have hstrip2 : py_strip (delete_char ',' (delete_char '$' body)) =
      delete_char ',' (delete_char '$' body) :=
    py_strip_eq_self_of_forall
      (fun c hc => money_body_char_not_space (hchars c (hsub c hc)))
  have hdash : ¬ ((delete_char ',' (delete_char '$' body)).head? = some '-') := by
    refine head_ne_dash_of_chars ?_
    intro c hc h
    subst h
    rcases hchars '-' (hsub '-' hc) with h | h | h | h <;> exact absurd h (by decide)
  simp only [parse_sign_residue, List.head?_cons, hlast, hdrop]
  simp [hstrip2, hdash]

/-- Residue of a parenthesized dash-negated money body. -/
theorem psr_paren_dash {body : Str}
    (hchars : ∀ c ∈ body, c.isDigit = true ∨ c = '.' ∨ c = ',' ∨ c = '$') :
    parse_sign_residue ('(' :: '-' :: body ++ [')']) =
      (true, delete_char ',' (delete_char '$' body)) := by
  have hlast : ('(' :: '-' :: body ++ [')']).getLast? = some ')' := by
    rw [show '(' :: '-' :: body ++ [')'] = ('(' :: '-' :: body) ++ [')'] by simp]
    exact List.getLast?_concat _
  have hdrop : (('(' :: '-' :: body ++ [')']).drop 1).dropLast = '-' :: body := by
    rw [show ('(' :: '-' :: body ++ [')']).drop 1 = ('-' :: body) ++ [')'] by simp]
    exact List.dropLast_concat
  have hsub : ∀ c ∈ delete_char ',' (delete_char '$' body), c ∈ body :=
    fun c hc => mem_delete_char (mem_delete_char hc)
  have hstrip2 : py_strip ('-' :: delete_char ',' (delete_char '$' body)) =
      '-' :: delete_char ',' (delete_char '$' body) := by
    refine py_strip_eq_self_of_forall ?_
    intro c hc
    rcases List.mem_cons.mp hc with h | h
    · subst h; rfl
    · exact money_body_char_not_space (hchars c (hsub c h))
  have hdel : delete_char ',' (delete_char '$' ('-' :: body)) =
      '-' :: delete_char ',' (delete_char '$' body) := by
    simp [delete_char]
  simp only [parse_sign_residue, List.head?_cons, hlast, hdrop, hdel]
  simp [hstrip2, hdel]

/-- Assembles `parse_decimal` from a computed sign and residue. -/
theorem parse_decimal_of_residue {v : Str} (hne : py_strip v ≠ [])
    {neg : Bool} {residue : Str}
    (hpsr : parse_sign_residue (py_strip v) = (neg, residue)) {d : Dec}
    (hdl : decimal_lit residue = some d) :
    parse_decimal (some v) = some (if neg then d.neg else d) := by
  show (if py_strip v = [] then none else parse_decimal_cleaned (py_strip v))
    = some (if neg then d.neg else d)
  rw [if_neg hne]
  unfold parse_decimal_cleaned
  rw [hpsr]
  show (match decimal_lit residue with
    | none => none
    | some d => some (if neg then d.neg else d)) = some (if neg then d.neg else d)
  rw [hdl]

/-- C6: `parse_money` strips the currency symbol and thousands separators,
the parenthesized form and a leading dash each independently trigger
negation (either one suffices, and both still negate), a residue that is no
numeral yields `none` rather than an error, and the three specified examples
hold exactly (`1234.50 = ⟨123450, 2⟩`, `-45.00 = ⟨-4500, 2⟩`). -/
theorem C6_parse_money :
    parse_decimal (some (str "$1,234.50")) = some ⟨123450, 2⟩ ∧
    parse_decimal (some (str "(45.00)")) = some ⟨-4500, 2⟩ ∧
    parse_decimal (some (str "abc")) = none ∧
    (∀ v : Str, py_strip v ≠ [] →
      decimal_lit (parse_sign_residue (py_strip v)).2 = none →
      parse_decimal (some v) = none) ∧
    (∀ (body : Str) (d : Dec), body ≠ [] →
      (∀ c ∈ body, c.isDigit = true ∨ c = '.' ∨ c = ',' ∨ c = '$') →
      decimal_lit (delete_char ',' (delete_char '$' body)) = some d →
      parse_decimal (some body) = some d ∧
      parse_decimal (some ('-' :: body)) = some d.neg ∧
      parse_decimal (some ('(' :: body ++ [')'])) = some d.neg ∧
      parse_decimal (some ('(' :: '-' :: body ++ [')'])) = some d.neg) := by
  refine ⟨by decide, by decide, by decide, ?_, ?_⟩
  · intro v hne hres
    rcases hpair : parse_sign_residue (py_strip v) with ⟨neg, residue⟩
    rw [hpair] at hres
    have hres2 : decimal_lit residue = none := hres
    show (if py_strip v = [] then none else parse_decimal_cleaned (py_strip v)) = none
    rw [if_neg hne]
    unfold parse_decimal_cleaned
    rw [hpair]
    show (match decimal_lit residue with
      | none => none
      | some d => some (if neg then d.neg else d)) = none
    rw [hres2]
  · intro body d hne hchars hdl
    have hnospace : ∀ c ∈ body, is_py_space c = false :=
      fun c hc => money_body_char_not_space (hchars c hc)
    have hstrip : py_strip body = body := py_strip_eq_self_of_forall hnospace
    refine ⟨?_, ?_, ?_, ?_⟩
    · have hne2 : py_strip body ≠ [] := by rw [hstrip]; exact hne
      have h := parse_decimal_of_residue hne2
        (by rw [hstrip]; exact psr_plain hne hchars) hdl
      simpa using h
    · have hstrip3 : py_strip ('-' :: body) = '-' :: body := by
        refine py_strip_eq_self_of_forall ?_
        intro c hc
        rcases List.mem_cons.mp hc with h | h
        · subst h; rfl
        · exact hnospace c h
      have hne2 : py_strip ('-' :: body) ≠ [] := by
        rw [hstrip3]; exact List.cons_ne_nil _ _
      have h := parse_decimal_of_residue hne2
        (by rw [hstrip3]; exact psr_dash hchars) hdl
      simpa using h
    · have hstrip3 : py_strip ('(' :: body ++ [')']) = '(' :: body ++ [')'] := by
        refine py_strip_eq_self_of_forall ?_
        intro c hc
        rcases List.mem_cons.mp hc with h | h
        · subst h; rfl
        · rcases List.mem_append.mp h with h2 | h2
          · exact hnospace c h2
          · rcases List.mem_singleton.mp h2 with rfl; rfl
      have hne2 : py_strip ('(' :: body ++ [')']) ≠ [] := by
        rw [hstrip3]; exact List.cons_ne_nil _ _
      have h := parse_decimal_of_residue hne2
        (by rw [hstrip3]; exact psr_paren_plain hne hchars) hdl
      simpa using h
    · have hstrip3 : py_strip ('(' :: '-' :: body ++ [')']) = '(' :: '-' :: body ++ [')'] := by
        refine py_strip_eq_self_of_forall ?_
        intro c hc
        rcases List.mem_cons.mp hc with h | h
        · subst h; rfl
        · rcases List.mem_cons.mp h with h | h
          · subst h; rfl
          · rcases List.mem_append.mp h with h2 | h2
            · exact hnospace c h2
            · rcases List.mem_singleton.mp h2 with rfl; rfl
      have hne2 : py_strip ('(' :: '-' :: body ++ [')']) ≠ [] := by
        rw [hstrip3]; exact List.cons_ne_nil _ _
      have h := parse_decimal_of_residue hne2
        (by rw [hstrip3]; exact psr_paren_dash hchars) hdl
      simpa using h

/-- Witness for C6 at the body `45.00`. -/
theorem C6_parse_money_witness :
    (str "45.00" ≠ [] ∧
      decimal_lit (delete_char ',' (delete_char '$' (str "45.00"))) =
        some ⟨4500, 2⟩) ∧
    (parse_decimal (some (str "45.00")) = some ⟨4500, 2⟩ ∧
      parse_decimal (some ('-' :: str "45.00")) = some (Dec.neg ⟨4500, 2⟩) ∧
      parse_decimal (some ('(' :: str "45.00" ++ [')'])) = some (Dec.neg ⟨4500, 2⟩) ∧
      parse_decimal (some ('(' :: '-' :: str "45.00" ++ [')'])) = some (Dec.neg ⟨4500, 2⟩)) := by
  refine ⟨⟨by decide, by decide⟩, ?_⟩
  exact C6_parse_money.2.2.2.2 (str "45.00") ⟨4500, 2⟩ (by decide) (by decide) (by decide)

/-! ## C1: sequential multi-branch distribution -/

/-- C1 counterexample: a `NetWatch360 Managed Firewall` line with quantity
`1.00` (so `Q = 1 ≤ N = 13`) and unit price `0.00`.  The claim requires the
first branch (`Acworth`) to receive one allocation row of amount `u`; the
code's `add_row` drops exactly-zero amounts (`processing.py` 1341-1343), so
no row at all is produced. -/
theorem C1_counterexample :
    (allocate_integricom_fixed_line
      ⟨str "Managed firewall", str "NetWatch360 Managed Firewall",
        ⟨100, 2⟩, ⟨0, 2⟩, ⟨0, 2⟩⟩
      (str "1:NetWatch360 Managed Firewall") []).1 = [] := by
  decide

theorem add_row_app (canonical : Str) (rows : List ARow) (b : Str) (amount : Dec)
    (h : (amount.quantize2).val_eq ⟨0, 2⟩ = false) (hb : b ≠ []) :
    add_row canonical rows b amount =
      rows ++ [⟨str "invoice", b, canonical, amount.quantize2⟩] := by
  simp [add_row, h, hb]

theorem fold_add_row (canonical : Str) (unit : Dec)
    (hu : (unit.quantize2).val_eq ⟨0, 2⟩ = false) :
    ∀ (bs : List Str) (rs : List ARow), (∀ b ∈ bs, b ≠ []) →
      bs.foldl (fun rs b => add_row canonical rs b unit) rs =
        rs ++ bs.map (fun b => unit_row canonical b unit) := by
  intro bs
  induction bs with
  | nil => intro rs _; simp
  | cons b rest ih =>
    intro rs hb
    rw [List.foldl_cons,
      add_row_app canonical rs b unit hu (hb b (List.mem_cons_self b rest))]
    rw [ih _ (fun x hx => hb x (List.mem_cons_of_mem b hx))]
    simp [unit_row]

theorem fold_no_submission (line_key canonical : Str) (unit : Dec) (qty_int : ℤ)
    (updates : List ((Str × ℕ) × Str)) :
    ∀ (is : List ℕ) (s : SeqState),
      (∀ i ∈ is, dict_get (line_key, i) updates = none) →
      is.foldl (seq_extra_step line_key canonical unit qty_int updates) s =
        { s with prompts := s.prompts ++
            is.map (open_prompt line_key canonical unit qty_int s.assigned_order) } := by
  intro is
  induction is with
  | nil => intro s _; simp
  | cons i rest ih =>
    intro s h
    rw [List.foldl_cons]
    have hstep : seq_extra_step line_key canonical unit qty_int updates s i =
        { s with prompts := s.prompts ++
            [open_prompt line_key canonical unit qty_int s.assigned_order i] } := by
      have hnone := h i (List.mem_cons_self i rest)
      simp [seq_extra_step, hnone, py_strip, add_branch_prompt, open_prompt]
    rw [hstep]
    rw [ih _ (fun x hx => h x (List.mem_cons_of_mem i hx))]
    simp

theorem prompt_range_ne_nil {k : ℕ} (hk : 0 < k) : prompt_range k ≠ [] := by
  intro h
  have hl := congrArg List.length h
  simp [prompt_range] at hl
  omega

/-- C1 (amended): for a sequentially-distributed line over branch list of
length `N` with integer quantity `Q ≥ 0` and nonblank branch names, provided
the quantized unit price is nonzero (zero-amount rows are suppressed by
`add_row`): if `Q ≤ N` the first `Q` branches in list order each receive one
allocation row of amount `u`, a residual `amount − u·Q` row goes to Home
Office exactly when it is nonzero, and no prompts are produced; if `Q > N`
and no resolution was submitted for any `(line_key, prompt_index)` pair,
exactly `Q − N` prompts are produced, with `prompt_index` values `1`
through `Q − N`, on top of the `N` in-order unit rows. -/
theorem C1_sequential_distribution
    (line_key canonical : Str) (Q : ℤ) (unit total : Dec)
    (updates : List ((Str × ℕ) × Str)) (branches : List Str)
    (hq0 : 0 ≤ Q)
    (hb : ∀ b ∈ branches, b ≠ [])
    (hu : (unit.quantize2).val_eq ⟨0, 2⟩ = false) :
    (Q ≤ (branches.length : ℤ) →
      (allocate_by_unit_sequence line_key canonical Q unit total updates branches).1 =
        (branches.take Q.toNat).map (fun b => unit_row canonical b unit) ++
          (if ((total.sub ((unit.mul ⟨Q, 0⟩).quantize2)).quantize2.val_eq ⟨0, 2⟩) = false
            then [⟨str "invoice", HOME_OFFICE, canonical,
              (total.sub ((unit.mul ⟨Q, 0⟩).quantize2)).quantize2⟩]
            else []) ∧
      (allocate_by_unit_sequence line_key canonical Q unit total updates branches).2.2 = []) ∧
    ((branches.length : ℤ) < Q →
      (∀ i : ℕ, dict_get (line_key, i) updates = none) →
      (allocate_by_unit_sequence line_key canonical Q unit total updates branches).2.2 =
        (prompt_range (Q - (branches.length : ℤ)).toNat).map
          (open_prompt line_key canonical unit Q branches) ∧
      ((allocate_by_unit_sequence line_key canonical Q unit total updates branches).2.2).map
          (fun p => p.prompt_index) =
        prompt_range (Q - (branches.length : ℤ)).toNat ∧
      (allocate_by_unit_sequence line_key canonical Q unit total updates branches).1 =
        branches.map (fun b => unit_row canonical b unit)) := by
  constructor
  · intro hqN
    have hmin : min (max Q 0) (branches.length : ℤ) = Q := by
      rw [max_eq_left hq0]
      exact min_eq_left hqN
    have hext : (max (Q - (branches.length : ℤ)) 0).toNat = 0 := by omega
    have htakelen : (((branches.take Q.toNat).length : ℕ) : ℤ) = Q := by
      rw [List.length_take]
      omega
    have hfold := fold_add_row canonical unit hu (branches.take Q.toNat) []
      (fun b hbmem => hb b (List.mem_of_mem_take hbmem))
    constructor
    · simp only [allocate_by_unit_sequence, hmin, hext, prompt_range, List.range_zero,
        List.map_nil, List.foldl_nil, hfold, List.nil_append]
      rw [htakelen]
      by_cases hrem : ((total.sub ((unit.mul ⟨Q, 0⟩).quantize2)).quantize2.val_eq ⟨0, 2⟩) = true
      · simp [hrem]
      · have hrem2 : ((total.sub ((unit.mul ⟨Q, 0⟩).quantize2)).quantize2.val_eq ⟨0, 2⟩) = false :=
          Bool.eq_false_iff.mpr hrem
        have hq2 : ((total.sub ((unit.mul ⟨Q, 0⟩).quantize2)).quantize2).quantize2 =
            (total.sub ((unit.mul ⟨Q, 0⟩).quantize2)).quantize2 := by
          simp [Dec.quantize2, dec_cents_two]
        have hrow := add_row_app canonical
          ((branches.take Q.toNat).map (fun b => unit_row canonical b unit))
          HOME_OFFICE ((total.sub ((unit.mul ⟨Q, 0⟩).quantize2)).quantize2)
          (by rw [hq2, hrem2]) (by decide)
        simp only [hrem2, Bool.false_eq_true, not_false_eq_true, if_true,
          eq_self_iff_true, hrow, hq2]
        simp
    · simp only [allocate_by_unit_sequence, hmin, hext, prompt_range, List.range_zero,
        List.map_nil, List.foldl_nil, hfold, List.nil_append]
      rw [htakelen]
      by_cases hrem : ((total.sub ((unit.mul ⟨Q, 0⟩).quantize2)).quantize2.val_eq ⟨0, 2⟩) = true
      · simp [hrem]
      · have hrem2 := Bool.eq_false_iff.mpr hrem
        simp [hrem2]
  · intro hqN hnosub
    have hmin : min (max Q 0) (branches.length : ℤ) = (branches.length : ℤ) := by
      rw [max_eq_left hq0]
      exact min_eq_right (le_of_lt hqN)
    have htake : branches.take ((branches.length : ℤ)).toNat = branches := by
      simp
    have hfold := fold_add_row canonical unit hu branches [] hb
    have hnosub2 : ∀ i ∈ prompt_range (Q - (branches.length : ℤ)).toNat,
        dict_get (line_key, i) updates = none := fun i _ => hnosub i
    have hfoldp := fold_no_submission line_key canonical unit Q updates
      (prompt_range (Q - (branches.length : ℤ)).toNat)
      ⟨branches, branches.map (fun b => unit_row canonical b unit),
        if Q < (branches.length : ℤ) then
          [canonical ++ str ": invoice quantity is " ++ int_str Q ++
            str "; template allocation used the first " ++
            int_str (branches.length : ℤ) ++ str " branches."]
        else [], []⟩ hnosub2
    have hprne : prompt_range (Q - (branches.length : ℤ)).toNat ≠ [] := by
      refine prompt_range_ne_nil ?_
      omega
    have hmax2 : max (Q - (branches.length : ℤ)) 0 = Q - (branches.length : ℤ) :=
      max_eq_left (by omega)
    simp only [allocate_by_unit_sequence, hmin, htake, hmax2, hfold, List.nil_append, hfoldp]
    have hmapne : (prompt_range (Q - (branches.length : ℤ)).toNat).map
        (open_prompt line_key canonical unit Q branches) ≠ [] := by
      intro h
      exact hprne (List.map_eq_nil_iff.mp h)
    simp only [ne_eq, hmapne, not_false_eq_true, if_true]
    refine ⟨trivial, ?_, trivial⟩
    rw [List.map_map]
    have : (fun p : BranchPrompt => p.prompt_index) ∘
        (open_prompt line_key canonical unit Q branches) = id := by
      funext i
      rfl
    rw [this, List.map_id]

/-- Witness for C1 at the repository's firewall fixture: quantity 14 over
the 13 district branches at `10.00`, no submissions. -/
theorem C1_sequential_distribution_witness :
    ((0 : ℤ) ≤ 14 ∧ (∀ b ∈ INTEGRICOM_DISTRICT_BRANCHES, b ≠ []) ∧
      ((Dec.quantize2 ⟨1000, 2⟩).val_eq ⟨0, 2⟩ = false)) ∧
    ((INTEGRICOM_DISTRICT_BRANCHES.length : ℤ) < 14 →
      (∀ i : ℕ, dict_get (str "1:NetWatch360 Managed Firewall", i)
        ([] : List ((Str × ℕ) × Str)) = none) →
      (allocate_by_unit_sequence (str "1:NetWatch360 Managed Firewall")
          (str "NetWatch360 Managed Firewall") 14 ⟨1000, 2⟩ ⟨14000, 2⟩ []
          INTEGRICOM_DISTRICT_BRANCHES).2.2 =
        (prompt_range (14 - (INTEGRICOM_DISTRICT_BRANCHES.length : ℤ)).toNat).map
          (open_prompt (str "1:NetWatch360 Managed Firewall")
            (str "NetWatch360 Managed Firewall") ⟨1000, 2⟩ 14
            INTEGRICOM_DISTRICT_BRANCHES) ∧
      ((allocate_by_unit_sequence (str "1:NetWatch360 Managed Firewall")
          (str "NetWatch360 Managed Firewall") 14 ⟨1000, 2⟩ ⟨14000, 2⟩ []
          INTEGRICOM_DISTRICT_BRANCHES).2.2).map (fun p => p.prompt_index) =
        prompt_range (14 - (INTEGRICOM_DISTRICT_BRANCHES.length : ℤ)).toNat ∧
      (allocate_by_unit_sequence (str "1:NetWatch360 Managed Firewall")
          (str "NetWatch360 Managed Firewall") 14 ⟨1000, 2⟩ ⟨14000, 2⟩ []
          INTEGRICOM_DISTRICT_BRANCHES).1 =
        INTEGRICOM_DISTRICT_BRANCHES.map
          (fun b => unit_row (str "NetWatch360 Managed Firewall") b ⟨1000, 2⟩)) := by
  refine ⟨⟨by decide, by decide, by decide⟩, ?_⟩
  exact (C1_sequential_distribution (str "1:NetWatch360 Managed Firewall")
    (str "NetWatch360 Managed Firewall") 14 ⟨1000, 2⟩ ⟨14000, 2⟩ []
    INTEGRICOM_DISTRICT_BRANCHES (by decide) (by decide) (by decide)).2

/-! ## C3: dynamic matching and the reconciliation delta -/

theorem starts_with_append (p q : Str) : starts_with p (p ++ q) = true := by
  induction p with
  | nil => rfl
  | cons c rest ih => simp [starts_with, ih]

theorem contains_sub_of_starts (p hay : Str) (h : starts_with p hay = true) :
    contains_sub p hay = true := by
  cases hay with
  | nil => simpa [contains_sub] using h
  | cons c rest => simp [contains_sub, h]

theorem contains_sub_append_left (p q : Str) : contains_sub p (p ++ q) = true :=
  contains_sub_of_starts _ _ (starts_with_append p q)

/-- C3: for every dynamically-matched invoice line with amount `a`, unit
price `u` and matched user count `m`, building the line's allocation posts a
single reconciliation delta row of amount `a − u·m` (quantized) to the
default branch exactly when that value is nonzero, and emits a warning
mentioning the line's canonical name exactly when `m` differs from the
integer invoice quantity; no prompts are produced by a dynamic line. -/
theorem C3_dynamic_reconciliation
    (users : List IntegricomExportUser) (updates : List ((Str × ℕ) × Str))
    (s : AllocState) (idx : ℕ) (line : IntegricomInvoiceLine)
    (hdyn : dynamic_licenses.contains line.canonical_name = true) :
    ((((line.amount.sub ((line.unit_price.mul
        ⟨((users.filter (fun u => integricom_user_matches_rule u line.canonical_name)).length : ℤ),
          0⟩).quantize2)).quantize2).val_eq ⟨0, 2⟩) = false →
      (process_invoice_line users updates s (idx, line)).non_user_raw =
        s.non_user_raw ++
          [(⟨str "invoice", HOME_OFFICE, line.canonical_name,
            (line.amount.sub ((line.unit_price.mul
              ⟨((users.filter (fun u => integricom_user_matches_rule u line.canonical_name)).length : ℤ),
                0⟩).quantize2)).quantize2⟩, str "Invoice Delta")]) ∧
    ((((line.amount.sub ((line.unit_price.mul
        ⟨((users.filter (fun u => integricom_user_matches_rule u line.canonical_name)).length : ℤ),
          0⟩).quantize2)).quantize2).val_eq ⟨0, 2⟩) = true →
      (process_invoice_line users updates s (idx, line)).non_user_raw = s.non_user_raw) ∧
    (((users.filter (fun u => integricom_user_matches_rule u line.canonical_name)).length : ℤ) ≠
        line.quantity.trunc_int →
      ∃ w, (process_invoice_line users updates s (idx, line)).warnings = s.warnings ++ [w] ∧
        contains_sub line.canonical_name w = true) ∧
    (((users.filter (fun u => integricom_user_matches_rule u line.canonical_name)).length : ℤ) =
        line.quantity.trunc_int →
      (process_invoice_line users updates s (idx, line)).warnings = s.warnings) ∧
    (process_invoice_line users updates s (idx, line)).prompts = s.prompts := by
  refine ⟨?_, ?_, ?_, ?_, ?_⟩
  · intro hrem
    simp only [process_invoice_line, hdyn, if_true, process_dynamic_line,
      hrem, Bool.false_eq_true, not_false_eq_true, if_true, Option.toList_some,
      List.map_cons, List.map_nil]
  · intro hrem
    simp only [process_invoice_line, hdyn, if_true, process_dynamic_line,
      hrem, not_true_eq_false, if_false, Option.toList_none, List.map_nil,
      List.append_nil]
  · intro hm
    refine ⟨line.canonical_name ++ str ": invoice quantity is " ++
      int_str line.quantity.trunc_int ++ str ", matched users are " ++
      nat_str (users.filter
        (fun u => integricom_user_matches_rule u line.canonical_name)).length ++
      str "; difference allocated to Home Office.", ?_, ?_⟩
    · simp only [process_invoice_line, hdyn, if_true, process_dynamic_line,
        ne_eq, hm, not_false_eq_true, if_true]
    · have h := contains_sub_append_left line.canonical_name
        (str ": invoice quantity is " ++ int_str line.quantity.trunc_int ++
          str ", matched users are " ++
          nat_str (users.filter
            (fun u => integricom_user_matches_rule u line.canonical_name)).length ++
          str "; difference allocated to Home Office.")
      simpa [List.append_assoc] using h
  · intro hm
    simp only [process_invoice_line, hdyn, if_true, process_dynamic_line,
      hm, ne_eq, not_true_eq_false, if_false, List.append_nil]
  · simp only [process_invoice_line, hdyn, if_true]

/-- Witness for C3 at the claim's instance shape: three users of which two
satisfy the Workstation predicate, invoice quantity 4, amount 100.00, unit
price 25.00: the posted delta row is exactly `100.00 - 2*25.00 = 50.00` on
Home Office and a warning mentioning "Workstation" is emitted. -/
theorem C3_dynamic_reconciliation_witness :
    (process_invoice_line c3_users [] ⟨[], [], [], [], []⟩ (1, c3_line)).non_user_raw =
      [(⟨str "invoice", HOME_OFFICE, str "Workstation", ⟨5000, 2⟩⟩, str "Invoice Delta")] ∧
    ∃ w, (process_invoice_line c3_users [] ⟨[], [], [], [], []⟩ (1, c3_line)).warnings = [w] ∧
      contains_sub (str "Workstation") w = true := by
  have h := C3_dynamic_reconciliation c3_users [] ⟨[], [], [], [], []⟩ 1 c3_line (by decide)
  refine ⟨?_, ?_⟩
  · have h1 := h.1 (by decide)
    rw [h1]
    decide
  · obtain ⟨w, hw1, hw2⟩ := h.2.2.1 (by decide)
    exact ⟨w, by simpa using hw1, hw2⟩

/-! ## C7: the finalization gate and the pre-gate directory seeding -/

/-- C7 counterexample: a pass over one managed-firewall line (quantity 14,
13 known district branches) is left with an unresolved `BranchPrompt`, so
it does not finalize and marks no user as seen — yet a brand-new directory
row for the export user `a@b.com` IS written during that same pass,
contrary to the claim that no new directory row is written while a prompt
remains unresolved. -/
theorem C7_counterexample :
    (analyze_integricom_pass [] [c7_user] [] [] [c7_fwline]).prompts ≠ [] ∧
    (analyze_integricom_pass [] [c7_user] [] [] [c7_fwline]).touched = [] ∧
    (analyze_integricom_pass [] [c7_user] [] [] [c7_fwline]).finalized = false ∧
    dict_get (str "a@b.com") ([] : List (Str × Profile)) = none ∧
    dict_get (str "a@b.com")
        (analyze_integricom_pass [] [c7_user] [] [] [c7_fwline]).directory =
      some ⟨HOME_OFFICE, str "A", str "B"⟩ := by
  decide

/-- C7 (amended): in every analysis pass the directory ends as
`seeded_directory` — submitted branch updates persisted and a default-branch
row seeded for each absent export user — whether or not the pass finalizes;
when the pass is left with an unresolved email or an unresolved prompt it
does not finalize and touches no user as seen, and it hands back exactly the
allocation's unresolved-email set, prompt list, per-user rows and line rows;
only a pass with neither kind of unresolved item finalizes, and that one
touches every export user. -/
theorem C7_finalization_gate
    (dir0 : List (Str × Profile)) (export_users : List IntegricomExportUser)
    (submitted_updates : List UserUpdate) (item_updates : List BranchItemUpdate)
    (invoice_lines : List IntegricomInvoiceLine) :
    (analyze_integricom_pass dir0 export_users submitted_updates item_updates
        invoice_lines).directory =
      seeded_directory dir0 submitted_updates export_users ∧
    ((analyze_integricom_pass dir0 export_users submitted_updates item_updates
        invoice_lines).unresolved_emails ≠ [] ∨
      (analyze_integricom_pass dir0 export_users submitted_updates item_updates
        invoice_lines).prompts ≠ [] →
      (analyze_integricom_pass dir0 export_users submitted_updates item_updates
          invoice_lines).touched = [] ∧
        (analyze_integricom_pass dir0 export_users submitted_updates item_updates
          invoice_lines).finalized = false ∧
        (analyze_integricom_pass dir0 export_users submitted_updates item_updates
            invoice_lines).unresolved_emails =
          (build_integricom_user_allocations export_users
            (seeded_directory dir0 submitted_updates export_users)
            invoice_lines item_updates).2.2.2.2.1 ∧
        (analyze_integricom_pass dir0 export_users submitted_updates item_updates
            invoice_lines).prompts =
          (build_integricom_user_allocations export_users
            (seeded_directory dir0 submitted_updates export_users)
            invoice_lines item_updates).2.2.2.2.2) ∧
    ((analyze_integricom_pass dir0 export_users submitted_updates item_updates
        invoice_lines).finalized = false ∨
      (analyze_integricom_pass dir0 export_users submitted_updates item_updates
        invoice_lines).touched = export_users.map (fun u => u.email)) ∧
    (analyze_integricom_pass dir0 export_users submitted_updates item_updates
        invoice_lines).user_rows =
      (build_integricom_user_allocations export_users
        (seeded_directory dir0 submitted_updates export_users)
        invoice_lines item_updates).2.1 := by
  simp only [analyze_integricom_pass]
  split
  · exact ⟨rfl, fun _ => ⟨rfl, rfl, rfl, rfl⟩, Or.inl rfl, rfl⟩
  · refine ⟨rfl, ?_, Or.inr rfl, rfl⟩
    rintro (hcon | hcon) <;> exact (hcon rfl).elim

/-- Witness for C7 on the firewall scenario: the hypothesis of the
unfinalized case holds (a prompt is unresolved) and the conclusions follow
by the gate theorem at that input. -/
theorem C7_finalization_gate_witness :
    ((analyze_integricom_pass [] [c7_user] [] [] [c7_fwline]).unresolved_emails ≠ [] ∨
      (analyze_integricom_pass [] [c7_user] [] [] [c7_fwline]).prompts ≠ []) ∧
    (analyze_integricom_pass [] [c7_user] [] [] [c7_fwline]).directory =
      seeded_directory [] [] [c7_user] ∧
    (analyze_integricom_pass [] [c7_user] [] [] [c7_fwline]).touched = [] ∧
    (analyze_integricom_pass [] [c7_user] [] [] [c7_fwline]).finalized = false := by
  have h := C7_finalization_gate [] [c7_user] [] [] [c7_fwline]
  have hp : (analyze_integricom_pass [] [c7_user] [] [] [c7_fwline]).prompts ≠ [] := by
    decide
  have h2 := h.2.1 (Or.inr hp)
  exact ⟨Or.inr hp, h.1, h2.1, h2.2.1⟩

/-! ## C9: header normalization and matching -/

theorem assoc_lookup_upsert (a k v : Str) (m : List (Str × Str)) :
    assoc_lookup a (upsert_assoc k v m) =
      if k = a then some v else assoc_lookup a m := by
  induction m with
  | nil => rfl
  | cons p rest ih =>
    obtain ⟨k0, v0⟩ := p
    by_cases hk : k0 = k
    · subst hk
      by_cases ha : k0 = a
      · subst ha
        simp [upsert_assoc, assoc_lookup]
      · simp [upsert_assoc, assoc_lookup, ha]
    · by_cases ha : k0 = a
      · subst ha
        have hne : ¬ k = k0 := fun h => hk h.symm
        simp [upsert_assoc, assoc_lookup, hk, hne]
      · simp [upsert_assoc, assoc_lookup, hk, ha, ih]

theorem norm_map_concat (hs : List Str) (h : Str) :
    norm_map (hs ++ [h]) = upsert_assoc (normalize_header h) h (norm_map hs) := by
  simp [norm_map, List.foldl_append]

theorem assoc_lookup_norm_map (a : Str) (hs : List Str) :
    assoc_lookup a (norm_map hs) =
      (hs.filter (fun h => normalize_header h = a)).getLast? := by
  induction hs using List.reverseRecOn with
  | nil => rfl
  | append_singleton hs h ih =>
    rw [norm_map_concat, assoc_lookup_upsert, List.filter_append]
    by_cases hh : normalize_header h = a
    · simp [hh, List.getLast?_concat]
    · simp [hh, ih]

theorem mem_upsert_assoc (p : Str × Str) (k v : Str) :
    ∀ (m : List (Str × Str)), p ∈ upsert_assoc k v m → p = (k, v) ∨ p ∈ m
  | [], h => by simpa [upsert_assoc] using h
  | (k0, v0) :: rest, h => by
    by_cases hk : k0 = k
    · simp only [upsert_assoc, if_pos hk] at h
      rcases List.mem_cons.mp h with h1 | h1
      · exact Or.inl (by rw [h1, hk])
      · exact Or.inr (List.mem_cons_of_mem _ h1)
    · simp only [upsert_assoc, if_neg hk] at h
      rcases List.mem_cons.mp h with h1 | h1
      · exact Or.inr (by rw [h1]; exact List.mem_cons_self _ _)
      · rcases mem_upsert_assoc p k v rest h1 with h2 | h2
        · exact Or.inl h2
        · exact Or.inr (List.mem_cons_of_mem _ h2)

theorem mem_norm_map_foldl (p : Str × Str) :
    ∀ (hs : List Str) (acc : List (Str × Str)),
      p ∈ hs.foldl (fun acc h => upsert_assoc (normalize_header h) h acc) acc →
      p ∈ acc ∨ (p.1 = normalize_header p.2 ∧ p.2 ∈ hs)
  | [], _, h => Or.inl h
  | h0 :: t, acc, h => by
    rcases mem_norm_map_foldl p t _ h with h1 | h1
    · rcases mem_upsert_assoc p _ _ _ h1 with h2 | h2
      · right
        refine ⟨by simp [h2], ?_⟩
        rw [h2]
        exact List.mem_cons_self _ _
      · exact Or.inl h2
    · exact Or.inr ⟨h1.1, List.mem_cons_of_mem _ h1.2⟩

theorem mem_norm_map (p : Str × Str) (hs : List Str) (h : p ∈ norm_map hs) :
    p.1 = normalize_header p.2 ∧ p.2 ∈ hs := by
  rcases mem_norm_map_foldl p hs [] h with h1 | h1
  · simp at h1
  · exact h1

theorem mem_of_assoc_lookup (a v : Str) :
    ∀ (m : List (Str × Str)), assoc_lookup a m = some v → (a, v) ∈ m
  | [], h => by simp [assoc_lookup] at h
  | (k0, v0) :: rest, h => by
    by_cases hk : k0 = a
    · simp only [assoc_lookup, if_pos hk] at h
      obtain rfl : v0 = v := Option.some.inj h
      rw [← hk]
      exact List.mem_cons_self _ _
    · simp only [assoc_lookup, if_neg hk] at h
      exact List.mem_cons_of_mem _ (mem_of_assoc_lookup a v rest h)

theorem findSome?_append_none {α β : Type} (f : α → Option β) :
    ∀ (l1 l2 : List α), (∀ x ∈ l1, f x = none) →
      List.findSome? f (l1 ++ l2) = List.findSome? f l2
  | [], _, _ => rfl
  | x :: t, l2, h => by
    rw [List.cons_append, List.findSome?_cons]
    have hx := h x (List.mem_cons_self _ _)
    rw [hx]
    exact findSome?_append_none f t l2 (fun y hy => h y (List.mem_cons_of_mem _ hy))

theorem match_header_exact_eq (headers aliases : List Str) (w : Str)
    (h : List.findSome? (fun b => assoc_lookup b (norm_map headers)) aliases = some w) :
    match_header headers aliases = some w := by
  simp only [match_header]
  rw [h]

theorem match_header_fallback (headers aliases : List Str)
    (h : List.findSome? (fun b => assoc_lookup b (norm_map headers)) aliases = none) :
    match_header headers aliases =
      (norm_map headers).findSome? (fun p =>
        if aliases.any (fun b => contains_sub b p.1 || contains_sub p.1 b) then some p.2
        else none) := by
  simp only [match_header]
  rw [h]

/-- C9 counterexample: the headers "Branch Name" and "Branch-Name" share
the normalized form "branch_name"; with the single alias "branch_name" the
matcher returns the SECOND header "Branch-Name", because the normalization
dict keeps the last header for a duplicated normalized form — the order of
the headers as given does not make the first of the tied headers win. -/
theorem C9_counterexample :
    normalize_header (str "Branch Name") = str "branch_name" ∧
    normalize_header (str "Branch-Name") = str "branch_name" ∧
    match_header [str "Branch Name", str "Branch-Name"] [str "branch_name"] =
      some (str "Branch-Name") := by
  decide

/-- C9 (amended): `match_header` normalizes each header and runs an exact
pass then a containment fallback. In the exact pass the ALIAS order is the
tie-break: the first alias equal to the normalized form of some header
wins, and it returns the LAST header (in the given order) bearing that
normalized form. Every successful match returns one of the given headers,
and the matcher returns none exactly when no alias equals any normalized
header and no alias/normalized-header pair is in bidirectional substring
containment. -/
theorem C9_header_matching (headers aliases : List Str) :
    (∀ pre a post, aliases = pre ++ a :: post →
      (∀ b ∈ pre, ∀ hd ∈ headers, normalize_header hd ≠ b) →
      (∃ hd ∈ headers, normalize_header hd = a) →
      match_header headers aliases =
        (headers.filter (fun hd => normalize_header hd = a)).getLast?) ∧
    (∀ r, match_header headers aliases = some r → r ∈ headers) ∧
    (match_header headers aliases = none ↔
      (∀ b ∈ aliases, ∀ hd ∈ headers, normalize_header hd ≠ b) ∧
      (∀ b ∈ aliases, ∀ hd ∈ headers,
        contains_sub b (normalize_header hd) = false ∧
        contains_sub (normalize_header hd) b = false)) := by
  refine ⟨?_, ?_, ?_⟩
  · rintro pre a post rfl hpre hex
    have hfnone : ∀ b ∈ pre, assoc_lookup b (norm_map headers) = none := by
      intro b hb
      rw [assoc_lookup_norm_map, List.getLast?_eq_none_iff]
      exact List.filter_eq_nil_iff.mpr (fun hd hmem => by simpa using hpre b hb hd hmem)
    obtain ⟨hd0, hmem0, hnh0⟩ := hex
    have hFne : headers.filter (fun hd => normalize_header hd = a) ≠ [] := by
      intro hnil
      have hx := List.filter_eq_nil_iff.mp hnil hd0 hmem0
      simp [hnh0] at hx
    cases hF : (headers.filter (fun hd => normalize_header hd = a)).getLast? with
    | none => exact absurd (List.getLast?_eq_none_iff.mp hF) hFne
    | some w =>
      have hfa : assoc_lookup a (norm_map headers) = some w := by
        rw [assoc_lookup_norm_map, hF]
      have hall : List.findSome? (fun b => assoc_lookup b (norm_map headers))
          (pre ++ a :: post) = some w := by
        rw [findSome?_append_none _ _ _ hfnone, List.findSome?_cons, hfa]
      rw [match_header_exact_eq headers (pre ++ a :: post) w hall]
  · intro r hr
    cases hfs : List.findSome? (fun b => assoc_lookup b (norm_map headers)) aliases with
    | some w =>
      rw [match_header_exact_eq headers aliases w hfs] at hr
      obtain rfl : w = r := Option.some.inj hr
      obtain ⟨b, _, hlook⟩ := List.exists_of_findSome?_eq_some hfs
      rw [assoc_lookup_norm_map] at hlook
      exact (List.mem_filter.mp (List.mem_of_mem_getLast? hlook)).1
    | none =>
      rw [match_header_fallback headers aliases hfs] at hr
      obtain ⟨p, hp, hgp⟩ := List.exists_of_findSome?_eq_some hr
      have hinv := mem_norm_map p headers hp
      by_cases hc : aliases.any (fun b => contains_sub b p.1 || contains_sub p.1 b) = true
      · rw [if_pos hc] at hgp
        obtain rfl : p.2 = r := Option.some.inj hgp
        exact hinv.2
      · rw [if_neg hc] at hgp
        cases hgp
  · constructor
    · intro hnone
      cases hfs : List.findSome? (fun b => assoc_lookup b (norm_map headers)) aliases with
      | some w =>
        rw [match_header_exact_eq headers aliases w hfs] at hnone
        cases hnone
      | none =>
        rw [match_header_fallback headers aliases hfs] at hnone
        rw [List.findSome?_eq_none_iff] at hnone
        rw [List.findSome?_eq_none_iff] at hfs
        constructor
        · intro b hb hd hhd hcontra
          have hx := hfs b hb
          rw [assoc_lookup_norm_map, List.getLast?_eq_none_iff] at hx
          have hmem : hd ∈ headers.filter (fun x => normalize_header x = b) :=
            List.mem_filter.mpr ⟨hhd, by simp [hcontra]⟩
          rw [hx] at hmem
          cases hmem
        · intro b hb hd hhd
          have hne : headers.filter (fun x => normalize_header x = normalize_header hd) ≠ [] := by
            intro hnil
            have hy := List.filter_eq_nil_iff.mp hnil hd hhd
            simp at hy
          cases hL : (headers.filter
              (fun x => normalize_header x = normalize_header hd)).getLast? with
          | none => exact absurd (List.getLast?_eq_none_iff.mp hL) hne
          | some v =>
            have hlook : assoc_lookup (normalize_header hd) (norm_map headers) = some v := by
              rw [assoc_lookup_norm_map, hL]
            have hgp := hnone (normalize_header hd, v) (mem_of_assoc_lookup _ _ _ hlook)
            by_cases hc : aliases.any (fun b2 =>
                contains_sub b2 (normalize_header hd) || contains_sub (normalize_header hd) b2) = true
            · rw [if_pos hc] at hgp
              cases hgp
            · have hcf := hc
              rw [List.any_eq_true] at hcf
              push_neg at hcf
              have hbf := hcf b hb
              simp only [ne_eq, Bool.or_eq_true, not_or] at hbf
              exact ⟨Bool.eq_false_iff.mpr hbf.1, Bool.eq_false_iff.mpr hbf.2⟩
    · rintro ⟨hA, hB⟩
      have hfs : List.findSome? (fun b => assoc_lookup b (norm_map headers)) aliases = none := by
        rw [List.findSome?_eq_none_iff]
        intro b hb
        rw [assoc_lookup_norm_map, List.getLast?_eq_none_iff]
        exact List.filter_eq_nil_iff.mpr (fun hd hhd => by simpa using hA b hb hd hhd)
      rw [match_header_fallback headers aliases hfs, List.findSome?_eq_none_iff]
      intro p hp
      have hinv := mem_norm_map p headers hp
      have hany : aliases.any (fun b => contains_sub b p.1 || contains_sub p.1 b) = false := by
        by_contra hb
        rw [Bool.not_eq_false, List.any_eq_true] at hb
        obtain ⟨b, hbmem, hbp⟩ := hb
        have hz := hB b hbmem p.2 hinv.2
        rw [hinv.1] at hbp
        rw [Bool.or_eq_true] at hbp
        rcases hbp with hbp | hbp
        · rw [hz.1] at hbp
          cases hbp
        · rw [hz.2] at hbp
          cases hbp
      rw [if_neg (by simp [hany])]

/-- Witness for C9: with headers ["Branch Name", "Branch-Name"] and
aliases ["x", "branch_name"], the exact-pass clause applies at
pre = ["x"] and alias "branch_name" and yields the last tied header. -/
theorem C9_header_matching_witness :
    match_header [str "Branch Name", str "Branch-Name"] [str "x", str "branch_name"] =
      (([str "Branch Name", str "Branch-Name"]).filter
        (fun hd => normalize_header hd = str "branch_name")).getLast? :=
  (C9_header_matching [str "Branch Name", str "Branch-Name"]
      [str "x", str "branch_name"]).1
    [str "x"] (str "branch_name") [] rfl (by decide) (by decide)

/-! ## C10: totality of the canonicalizer and non-empty canonical names -/

theorem canonical_rules_map_snd :
    canonical_heuristic_rules.map (fun r => r.2) = INTEGRICOM_CANONICAL_NAMES := rfl

theorem canonical_from_normalized_total (n f : Str) :
    canonical_from_normalized n f ∈ INTEGRICOM_CANONICAL_NAMES ∨
    canonical_from_normalized n f = f := by
  unfold canonical_from_normalized
  cases hfs : canonical_heuristic_rules.findSome?
      (fun r => if r.1 n then some r.2 else none) with
  | none => exact Or.inr rfl
  | some name =>
    left
    obtain ⟨r, hr, hval⟩ := List.exists_of_findSome?_eq_some hfs
    have hname : r.2 = name := by
      by_cases hc : r.1 n = true
      · rw [if_pos hc] at hval
        exact Option.some.inj hval
      · rw [if_neg hc] at hval
        cases hval
    show name ∈ INTEGRICOM_CANONICAL_NAMES
    rw [← canonical_rules_map_snd, ← hname]
    exact List.mem_map_of_mem _ hr

theorem canonical_from_normalized_ne_nil (n f : Str) (h : f ≠ []) :
    canonical_from_normalized n f ≠ [] := by
  rcases canonical_from_normalized_total n f with hmem | heq
  · intro hnil
    rw [hnil] at hmem
    exact absurd hmem (by decide)
  · rw [heq]
    exact h

theorem canonical_total (d : Str) :
    canonical_integricom_line d ∈ INTEGRICOM_CANONICAL_NAMES ∨
    canonical_integricom_line d = normalize_integricom_text d :=
  canonical_from_normalized_total _ _

theorem canonical_ne_nil (d : Str) (h : normalize_integricom_text d ≠ []) :
    canonical_integricom_line d ≠ [] :=
  canonical_from_normalized_ne_nil _ _ h

theorem head_dropWhile_false {α : Type} (p : α → Bool) :
    ∀ (l : List α) (c : α) (rest : List α), l.dropWhile p = c :: rest → p c = false
  | [], _, _, h => by simp [List.dropWhile] at h
  | x :: t, c, rest, h => by
    rw [List.dropWhile_cons] at h
    by_cases hx : p x = true
    · rw [if_pos hx] at h
      exact head_dropWhile_false p t c rest h
    · rw [if_neg hx] at h
      injection h with h1 h2
      rw [← h1]
      exact Bool.eq_false_iff.mpr hx

theorem py_strip_last_not_ws (u : Str) (h : py_strip u ≠ []) :
    ∃ c, (py_strip u).getLast? = some c ∧ is_py_space c = false := by
  unfold py_strip at h ⊢
  rw [List.getLast?_reverse]
  cases hd : (u.dropWhile is_py_space).reverse.dropWhile is_py_space with
  | nil =>
    exfalso
    apply h
    rw [hd]
    rfl
  | cons c rest =>
    exact ⟨c, rfl, head_dropWhile_false _ _ _ _ hd⟩

theorem py_strip_nil_all_ws (u : Str) (h : py_strip u = []) :
    ∀ c ∈ u, is_py_space c = true := by
  unfold py_strip at h
  have h2 : (u.dropWhile is_py_space).reverse.dropWhile is_py_space = [] := by
    have h3 := congrArg List.reverse h
    simpa using h3
  rw [List.dropWhile_eq_nil_iff] at h2
  have h3 : ∀ c ∈ u.dropWhile is_py_space, is_py_space c = true := by
    intro c hc
    exact h2 c (List.mem_reverse.mpr hc)
  intro c hc
  rw [← List.takeWhile_append_dropWhile is_py_space u] at hc
  rcases List.mem_append.mp hc with hc2 | hc2
  · exact List.mem_takeWhile_imp hc2
  · exact h3 c hc2

theorem mem_collapse_ws_aux_of_not_ws (c : Char) (hws : is_py_space c = false)
    (s : Str) : ∀ (b : Bool), c ∈ s → c ∈ collapse_ws_aux b s := by
  induction s with
  | nil =>
    intro b hmem
    cases hmem
  | cons x t ih =>
    intro b hmem
    rcases List.mem_cons.mp hmem with rfl | hmem2
    · simp [collapse_ws_aux, hws]
    · simp only [collapse_ws_aux]
      by_cases hx : is_py_space x = true
      · rw [if_pos hx]
        cases b <;> simp [ih true hmem2]
      · rw [if_neg hx]
        exact List.mem_cons_of_mem _ (ih false hmem2)

theorem all_ws_of_collapse_all_ws (s : Str) (b : Bool)
    (h : ∀ c ∈ collapse_ws_aux b s, is_py_space c = true) :
    ∀ c ∈ s, is_py_space c = true := by
  intro c hc
  by_contra hcon
  have hws : is_py_space c = false := Bool.eq_false_iff.mpr hcon
  have hx := h c (mem_collapse_ws_aux_of_not_ws c hws s b hc)
  rw [hx] at hws
  cases hws

theorem all_ws_of_replace_all_ws (s : Str)
    (h : ∀ c ∈ replace_char '–' '-' s, is_py_space c = true) :
    ∀ c ∈ s, is_py_space c = true := by
  intro c hc
  have hmem : (if c = '–' then '-' else c) ∈ replace_char '–' '-' s := by
    unfold replace_char
    exact List.mem_map_of_mem _ hc
  have himg := h _ hmem
  by_cases hcd : c = '–'
  · rw [if_pos hcd] at himg
    exact absurd himg (by decide)
  · rw [if_neg hcd] at himg
    exact himg

theorem normalize_normalize_ne_nil (d : Str)
    (h : normalize_integricom_text d ≠ []) :
    normalize_integricom_text (normalize_integricom_text d) ≠ [] := by
  intro hnil
  have hall : ∀ c ∈ collapse_ws (replace_char '–' '-' (normalize_integricom_text d)),
      is_py_space c = true := py_strip_nil_all_ws _ hnil
  have hall2 : ∀ c ∈ replace_char '–' '-' (normalize_integricom_text d),
      is_py_space c = true := all_ws_of_collapse_all_ws _ _ hall
  have hall3 : ∀ c ∈ normalize_integricom_text d, is_py_space c = true :=
    all_ws_of_replace_all_ws _ hall2
  obtain ⟨c, hlast, hws⟩ :=
    py_strip_last_not_ws (collapse_ws (replace_char '–' '-' d)) h
  have hc : c ∈ normalize_integricom_text d := List.mem_of_mem_getLast? hlast
  rw [hall3 c hc] at hws
  cases hws

theorem scan_commit_good (filename : Str) (s : ScanState)
    (description qty price amount : Str)
    (h : ∀ it ∈ s.items, it.canonical_name = canonical_integricom_line it.description ∧
      it.description ≠ [] ∧ ∃ d, it.description = normalize_integricom_text d)
    (hdn : ∃ d, description = normalize_integricom_text d) :
    ∀ it ∈ (scan_commit filename s description qty price amount).items,
      it.canonical_name = canonical_integricom_line it.description ∧
      it.description ≠ [] ∧ ∃ d, it.description = normalize_integricom_text d := by
  unfold scan_commit
  split_ifs with hb
  · exact h
  · cases parse_decimal (some qty) with
    | none => exact h
    | some qd =>
      cases parse_decimal (some price) with
      | none => exact h
      | some pd =>
        cases parse_decimal (some amount) with
        | none => exact h
        | some ad =>
          intro it hit
          rcases List.mem_append.mp hit with hit2 | hit2
          · exact h it hit2
          · rcases List.mem_singleton.mp hit2 with rfl
            exact ⟨rfl, hb, hdn⟩

theorem scan_step_good (filename raw_line : Str) (s : ScanState)
    (h : ∀ it ∈ s.items, it.canonical_name = canonical_integricom_line it.description ∧
      it.description ≠ [] ∧ ∃ d, it.description = normalize_integricom_text d) :
    ∀ it ∈ (scan_invoice_line filename s raw_line).items,
      it.canonical_name = canonical_integricom_line it.description ∧
      it.description ≠ [] ∧ ∃ d, it.description = normalize_integricom_text d := by
  simp only [scan_invoice_line]
  split_ifs with h0 h1 h2 h3 h4 h5
  · exact h
  · exact h
  · exact h
  · exact h
  · exact h
  · exact h
  · cases row_match (normalize_integricom_text raw_line) with
    | none => exact h
    | some q =>
      obtain ⟨d4, q4, p4, a4⟩ := q
      dsimp only
      apply scan_commit_good filename s _ q4 p4 a4 h
      split_ifs with ha
      · exact ⟨_, rfl⟩
      · exact ⟨_, rfl⟩

theorem scan_fold_good (filename : Str) :
    ∀ (ls : List Str) (s : ScanState),
      (∀ it ∈ s.items, it.canonical_name = canonical_integricom_line it.description ∧
        it.description ≠ [] ∧ ∃ d, it.description = normalize_integricom_text d) →
      ∀ it ∈ (ls.foldl (scan_invoice_line filename) s).items,
        it.canonical_name = canonical_integricom_line it.description ∧
        it.description ≠ [] ∧ ∃ d, it.description = normalize_integricom_text d
  | [], _, h => h
  | l :: t, s, h =>
    scan_fold_good filename t _ (scan_step_good filename l s h)

theorem dec_add_zero_left (x : Dec) : Dec.add ⟨0, 0⟩ x = x := by
  simp [Dec.add, Dec.scale_to]

theorem dec_val_eq_refl (x : Dec) : x.val_eq x = true := by
  simp [Dec.val_eq]

set_option maxHeartbeats 2000000 in
/-- C10: the canonicalizer is total — every description maps into the fixed
canonical vocabulary or falls back to its own normalized text; every line
item the invoice scanner emits has a non-empty description, carries exactly
`canonical_integricom_line` of that description, and that canonical name is
itself non-empty; and a line whose canonical name has no allocation rule is
not dropped: the fixed-line allocator produces no prompt for it, emits one
warning naming the line, and every row it posts goes to Home Office under
that canonical name, their sum being the full quantized line amount. -/
theorem C10_canonical_totality (filename raw : Str) (text_lines : List Str)
    (line : IntegricomInvoiceLine) (line_key : Str)
    (updates : List ((Str × ℕ) × Str)) :
    (canonical_integricom_line raw ∈ INTEGRICOM_CANONICAL_NAMES ∨
      canonical_integricom_line raw = normalize_integricom_text raw) ∧
    (∀ it ∈ (scan_integricom_invoice_lines filename text_lines).1,
      it.canonical_name = canonical_integricom_line it.description ∧
      it.description ≠ [] ∧ it.canonical_name ≠ []) ∧
    (integricom_rule_names.contains line.canonical_name = false →
      (allocate_integricom_fixed_line line line_key updates).2.2 = [] ∧
      (∃ w, (allocate_integricom_fixed_line line line_key updates).2.1 = [w] ∧
        contains_sub line.canonical_name w = true) ∧
      (∀ r ∈ (allocate_integricom_fixed_line line line_key updates).1,
        r.branch = HOME_OFFICE ∧ r.license = line.canonical_name) ∧
      (sum_amounts (allocate_integricom_fixed_line line line_key updates).1
        (HOME_OFFICE, line.canonical_name)).val_eq (line.amount.quantize2) = true) := by
  refine ⟨canonical_total raw, ?_, ?_⟩
  · intro it hit
    obtain ⟨hcan, hne, d, hd⟩ :=
      scan_fold_good filename text_lines ⟨[], [], []⟩
        (by intro it2 hit2; cases hit2) it hit
    refine ⟨hcan, hne, ?_⟩
    rw [hcan, hd]
    apply canonical_ne_nil
    apply normalize_normalize_ne_nil
    rw [← hd]
    exact hne
  · intro hrule
    have hmem : line.canonical_name ∉ integricom_rule_names := by simpa using hrule
    simp only [allocate_integricom_fixed_line]
    split_ifs with hf h1 h2 h3 h4 hsug h5 h6 h7
    · exact absurd (by
        have hx : line.canonical_name ∈ fixed_home_office := by simpa using hf
        exact List.mem_append_left _ hx) hmem
    · exact absurd (by rw [h1]; decide) hmem
    · exact absurd (by rw [h2]; decide) hmem
    · exact absurd (by rw [h3]; decide) hmem
    · exact absurd (by rw [h4]; decide) hmem
    · exact absurd (by rw [h4]; decide) hmem
    · exact absurd (by rw [h5]; decide) hmem
    · exact absurd (by rw [h6]; decide) hmem
    · exact absurd (by rw [h7]; decide) hmem
    · refine ⟨rfl, ⟨_, rfl, contains_sub_append_left _ _⟩, ?_, ?_⟩
      · intro r hr
        simp only [add_row] at hr
        split_ifs at hr with hz hho
        · cases hr
        · rcases List.mem_singleton.mp (by simpa using hr) with rfl
          exact ⟨rfl, rfl⟩
        · rcases List.mem_singleton.mp (by simpa using hr) with rfl
          exact ⟨rfl, rfl⟩
      · simp only [add_row]
        split_ifs with hz hho
        · have hz2 : Dec.val_eq (Dec.quantize2 ⟨Dec.cents line.amount, 2⟩) ⟨0, 2⟩ = true := hz
          rw [dec_quantize2_two, dec_val_eq_zero_two] at hz2
          have hc0 : Dec.cents line.amount = 0 := of_decide_eq_true hz2
          show Dec.val_eq ⟨0, 0⟩ ⟨Dec.cents line.amount, 2⟩ = true
          rw [hc0]
          decide
        all_goals
          have hqq : Dec.quantize2 (Dec.quantize2 line.amount) = Dec.quantize2 line.amount := by
            show Dec.quantize2 ⟨Dec.cents line.amount, 2⟩ = Dec.quantize2 line.amount
            rw [dec_quantize2_two]
            rfl
          rw [hqq]
          simp only [List.nil_append, sum_amounts, List.foldl_cons, List.foldl_nil]
          rw [if_pos trivial, dec_add_zero_left]
          exact dec_val_eq_refl _

set_option maxHeartbeats 2000000 in
/-- Witness for C10 at a concrete unrecognized line "Mystery Service":
no prompt and a single warning naming the line. -/
theorem C10_canonical_totality_witness :
    (allocate_integricom_fixed_line
        ⟨str "Mystery Service", str "Mystery Service", ⟨100, 2⟩, ⟨500, 2⟩, ⟨500, 2⟩⟩
        (str "k") []).2.2 = [] ∧
    (∃ w, (allocate_integricom_fixed_line
        ⟨str "Mystery Service", str "Mystery Service", ⟨100, 2⟩, ⟨500, 2⟩, ⟨500, 2⟩⟩
        (str "k") []).2.1 = [w] ∧
      contains_sub (str "Mystery Service") w = true) := by
  have h := (C10_canonical_totality (str "f") (str "x") []
      ⟨str "Mystery Service", str "Mystery Service", ⟨100, 2⟩, ⟨500, 2⟩, ⟨500, 2⟩⟩
      (str "k") []).2.2 (by decide)
  exact ⟨h.1, h.2.1⟩

/-! ## C4: order-independence and exactness of the breakdown -/

theorem dec_add_right_comm (b x y : Dec) : (b.add x).add y = (b.add y).add x := by
  rw [dec_add_assoc, dec_add_comm x y, ← dec_add_assoc]

theorem group_fold_cons (v : Dec) (r : ARow) (t : List ARow) (k : Str × Str) :
    group_fold v (r :: t) k =
      group_fold (if (r.branch, r.license) = k then v.add r.amount else v) t k := by
  rw [group_fold, List.foldl_cons]
  rfl

theorem upsert_amount_lookup (k k2 : Str × Str) (a : Dec) (m : List ((Str × Str) × Dec)) :
    dict_get k (upsert_amount k2 a m) =
      if k2 = k then
        match dict_get k m with
        | some v => some (v.add a)
        | none => some (Dec.add ⟨0, 0⟩ a)
      else dict_get k m := by
  induction m with
  | nil =>
    by_cases hk : k2 = k
    · simp [upsert_amount, dict_get, hk]
    · simp [upsert_amount, dict_get, hk]
  | cons p rest ih =>
    obtain ⟨k0, v0⟩ := p
    by_cases h0 : k0 = k2
    · subst h0
      by_cases hk : k0 = k
      · simp [upsert_amount, dict_get, hk]
      · simp [upsert_amount, dict_get, hk]
    · by_cases hk : k0 = k
      · subst hk
        have hne : ¬ k2 = k0 := fun hx => h0 hx.symm
        simp [upsert_amount, dict_get, h0, hne]
      · simp [upsert_amount, dict_get, h0, hk, ih]

theorem group_rows_lookup_aux (k : Str × Str) :
    ∀ (rows : List ARow) (acc : List ((Str × Str) × Dec)),
      (∀ v, dict_get k acc = some v →
        dict_get k (rows.foldl
          (fun acc r => upsert_amount (r.branch, r.license) r.amount acc) acc) =
          some (group_fold v rows k)) ∧
      (dict_get k acc = none →
        dict_get k (rows.foldl
          (fun acc r => upsert_amount (r.branch, r.license) r.amount acc) acc) =
          if rows.any (fun r => (r.branch, r.license) = k) then
            some (group_fold ⟨0, 0⟩ rows k)
          else none)
  | [], acc => by
    constructor
    · intro v hv
      simpa [group_fold] using hv
    · intro hnone
      simpa using hnone
  | r :: t, acc => by
    constructor
    · intro v hv
      rw [List.foldl_cons]
      by_cases hr : (r.branch, r.license) = k
      · have hv2 : dict_get k (upsert_amount (r.branch, r.license) r.amount acc) =
            some (v.add r.amount) := by
          rw [upsert_amount_lookup, if_pos hr, hv]
        rw [(group_rows_lookup_aux k t _).1 (v.add r.amount) hv2,
          group_fold_cons, if_pos hr]
      · have hv2 : dict_get k (upsert_amount (r.branch, r.license) r.amount acc) =
            some v := by
          rw [upsert_amount_lookup, if_neg hr, hv]
        rw [(group_rows_lookup_aux k t _).1 v hv2, group_fold_cons, if_neg hr]
    · intro hnone
      rw [List.foldl_cons]
      by_cases hr : (r.branch, r.license) = k
      · have hv2 : dict_get k (upsert_amount (r.branch, r.license) r.amount acc) =
            some (Dec.add ⟨0, 0⟩ r.amount) := by
          rw [upsert_amount_lookup, if_pos hr, hnone]
        rw [(group_rows_lookup_aux k t _).1 _ hv2, List.any_cons]
        have hr2 : decide ((r.branch, r.license) = k) = true := decide_eq_true hr
        rw [hr2, Bool.true_or, if_pos rfl, group_fold_cons, if_pos hr]
      · have hv2 : dict_get k (upsert_amount (r.branch, r.license) r.amount acc) =
            none := by
          rw [upsert_amount_lookup, if_neg hr, hnone]
        rw [(group_rows_lookup_aux k t _).2 hv2, List.any_cons]
        have hr2 : decide ((r.branch, r.license) = k) = false :=
          decide_eq_false hr
        rw [hr2, Bool.false_or, group_fold_cons, if_neg hr]

theorem group_rows_lookup (rows : List ARow) (k : Str × Str) :
    dict_get k (group_rows rows) =
      if rows.any (fun r => (r.branch, r.license) = k) then
        some (group_fold ⟨0, 0⟩ rows k)
      else none :=
  (group_rows_lookup_aux k rows []).2 rfl

theorem upsert_amount_keys (k : Str × Str) (a : Dec) :
    ∀ (m : List ((Str × Str) × Dec)) (k2 : Str × Str),
      k2 ∈ (upsert_amount k a m).map Prod.fst ↔ k2 = k ∨ k2 ∈ m.map Prod.fst
  | [], k2 => by simp [upsert_amount]
  | (k0, v0) :: rest, k2 => by
    by_cases h0 : k0 = k
    · subst h0
      simp only [upsert_amount, eq_self_iff_true, if_true, List.map_cons, List.mem_cons]
      tauto
    · simp only [upsert_amount, if_neg h0, List.map_cons, List.mem_cons,
        upsert_amount_keys k a rest k2]
      tauto

theorem nodup_upsert_keys (k : Str × Str) (a : Dec) :
    ∀ (m : List ((Str × Str) × Dec)), (m.map Prod.fst).Nodup →
      ((upsert_amount k a m).map Prod.fst).Nodup
  | [], _ => by simp [upsert_amount]
  | (k0, v0) :: rest, h => by
    simp only [List.map_cons, List.nodup_cons] at h
    by_cases h0 : k0 = k
    · subst h0
      simp only [upsert_amount, eq_self_iff_true, if_true, List.map_cons, List.nodup_cons]
      exact ⟨h.1, h.2⟩
    · simp only [upsert_amount, if_neg h0, List.map_cons, List.nodup_cons]
      refine ⟨?_, nodup_upsert_keys k a rest h.2⟩
      rw [upsert_amount_keys]
      rintro (rfl | hmem)
      · exact h0 rfl
      · exact h.1 hmem

theorem nodup_group_keys :
    ∀ (rows : List ARow) (acc : List ((Str × Str) × Dec)),
      (acc.map Prod.fst).Nodup →
      ((rows.foldl (fun acc r => upsert_amount (r.branch, r.license) r.amount acc)
        acc).map Prod.fst).Nodup
  | [], _, h => h
  | r :: t, acc, h =>
    nodup_group_keys t _ (nodup_upsert_keys _ _ acc h)

theorem dict_get_mem {κ α : Type} [DecidableEq κ] (k : κ) (v : α) :
    ∀ (l : List (κ × α)), dict_get k l = some v → (k, v) ∈ l
  | [], h => by simp [dict_get] at h
  | (k0, v0) :: rest, h => by
    by_cases h0 : k0 = k
    · simp only [dict_get, if_pos h0] at h
      obtain rfl : v0 = v := Option.some.inj h
      subst h0
      exact List.mem_cons_self _ _
    · simp only [dict_get, if_neg h0] at h
      exact List.mem_cons_of_mem _ (dict_get_mem k v rest h)

theorem mem_dict_get {κ α : Type} [DecidableEq κ] (k : κ) (v : α) :
    ∀ (l : List (κ × α)), (l.map Prod.fst).Nodup → (k, v) ∈ l → dict_get k l = some v
  | [], _, h => absurd h (List.not_mem_nil _)
  | (k0, v0) :: rest, hnd, h => by
    simp only [List.map_cons, List.nodup_cons] at hnd
    rcases List.mem_cons.mp h with h1 | h1
    · rcases h1 with ⟨rfl, rfl⟩
      simp [dict_get]
    · by_cases h0 : k0 = k
      · subst h0
        exact absurd (List.mem_map_of_mem Prod.fst h1) hnd.1
      · simp only [dict_get, if_neg h0]
        exact mem_dict_get k v rest hnd.2 h1

theorem group_fold_perm (k : Str × Str) {rows rows2 : List ARow}
    (h : rows.Perm rows2) (v : Dec) :
    group_fold v rows k = group_fold v rows2 k := by
  haveI : RightCommutative
      (fun (acc : Dec) (r : ARow) =>
        if (r.branch, r.license) = k then acc.add r.amount else acc) := by
    refine ⟨fun b a1 a2 => ?_⟩
    by_cases h1 : (a1.branch, a1.license) = k <;>
      by_cases h2 : (a2.branch, a2.license) = k <;>
      simp [h1, h2, dec_add_right_comm]
  exact h.foldl_eq v

theorem perm_any {α : Type} (p : α → Bool) {l1 l2 : List α} (h : l1.Perm l2) :
    l1.any p = l2.any p := by
  rw [Bool.eq_iff_iff]
  simp only [List.any_eq_true]
  constructor
  · rintro ⟨x, hx, hpx⟩
    exact ⟨x, h.mem_iff.mp hx, hpx⟩
  · rintro ⟨x, hx, hpx⟩
    exact ⟨x, h.mem_iff.mpr hx, hpx⟩

/-- C4: `build_breakdown` is order-independent — any permutation of the
allocation rows yields the identical summary; each summary row's
`total_amount` is the exact decimal sum of every matching input amount,
quantized to cents once at the end, and only keys that occur among the
rows appear; every key that occurs among the rows appears in the summary;
and the summary is sorted by `(branch, license)`. -/
theorem C4_breakdown_invariance (rows rows2 : List ARow) (hperm : rows.Perm rows2) :
    build_breakdown rows = build_breakdown rows2 ∧
    (∀ s ∈ build_breakdown rows,
      s.total_amount = (sum_amounts rows (s.branch, s.license)).cents ∧
      rows.any (fun r => (r.branch, r.license) = (s.branch, s.license)) = true) ∧
    (∀ k, rows.any (fun r => (r.branch, r.license) = k) = true →
      ∃ s ∈ build_breakdown rows, (s.branch, s.license) = k) ∧
    List.Sorted
      (fun a b : SummaryRow => key_le (a.branch, a.license) (b.branch, b.license) = true)
      (build_breakdown rows) := by
  haveI instTot : IsTotal ((Str × Str) × Dec)
      (fun x y : (Str × Str) × Dec => key_le x.1 y.1 = true) :=
    ⟨fun a b => key_le_total _ _⟩
  haveI instTrans : IsTrans ((Str × Str) × Dec)
      (fun x y : (Str × Str) × Dec => key_le x.1 y.1 = true) :=
    ⟨fun _ _ _ hab hbc => key_le_trans hab hbc⟩
  have hnd1 : ((group_rows rows).map Prod.fst).Nodup :=
    nodup_group_keys rows [] (by simp)
  have hnd2 : ((group_rows rows2).map Prod.fst).Nodup :=
    nodup_group_keys rows2 [] (by simp)
  have hs1 := List.sorted_insertionSort
    (fun x y : (Str × Str) × Dec => key_le x.1 y.1 = true) (group_rows rows)
  have hp1 := List.perm_insertionSort
    (fun x y : (Str × Str) × Dec => key_le x.1 y.1 = true) (group_rows rows)
  refine ⟨?_, ?_, ?_, ?_⟩
  · have hlook : ∀ k, dict_get k (group_rows rows) = dict_get k (group_rows rows2) := by
      intro k
      rw [group_rows_lookup, group_rows_lookup, perm_any _ hperm, group_fold_perm k hperm]
    have hgperm : (group_rows rows).Perm (group_rows rows2) := by
      rw [List.perm_ext_iff_of_nodup (List.Nodup.of_map _ hnd1) (List.Nodup.of_map _ hnd2)]
      rintro ⟨k, v⟩
      constructor
      · intro hm
        exact dict_get_mem k v _ (by rw [← hlook k]; exact mem_dict_get k v _ hnd1 hm)
      · intro hm
        exact dict_get_mem k v _ (by rw [hlook k]; exact mem_dict_get k v _ hnd2 hm)
    have hs2 := List.sorted_insertionSort
      (fun x y : (Str × Str) × Dec => key_le x.1 y.1 = true) (group_rows rows2)
    have hp2 := List.perm_insertionSort
      (fun x y : (Str × Str) × Dec => key_le x.1 y.1 = true) (group_rows rows2)
    have hknd1 : ((List.insertionSort
        (fun x y : (Str × Str) × Dec => key_le x.1 y.1 = true)
        (group_rows rows)).map Prod.fst).Nodup :=
      hnd1.perm (hp1.map Prod.fst).symm
    have hknd2 : ((List.insertionSort
        (fun x y : (Str × Str) × Dec => key_le x.1 y.1 = true)
        (group_rows rows2)).map Prod.fst).Nodup :=
      hnd2.perm (hp2.map Prod.fst).symm
    haveI instAnti : IsAntisymm ((Str × Str) × Dec)
        (fun x y : (Str × Str) × Dec => key_le x.1 y.1 = true ∧ x.1 ≠ y.1) :=
      ⟨fun a b hab hba => absurd (key_le_antisymm hab.1 hba.1) hab.2⟩
    have hstrict1 : List.Sorted
        (fun x y : (Str × Str) × Dec => key_le x.1 y.1 = true ∧ x.1 ≠ y.1)
        (List.insertionSort
          (fun x y : (Str × Str) × Dec => key_le x.1 y.1 = true) (group_rows rows)) :=
      hs1.and (List.pairwise_map.mp hknd1)
    have hstrict2 : List.Sorted
        (fun x y : (Str × Str) × Dec => key_le x.1 y.1 = true ∧ x.1 ≠ y.1)
        (List.insertionSort
          (fun x y : (Str × Str) × Dec => key_le x.1 y.1 = true) (group_rows rows2)) :=
      hs2.and (List.pairwise_map.mp hknd2)
    have heq := List.eq_of_perm_of_sorted
      ((hp1.trans hgperm).trans hp2.symm) hstrict1 hstrict2
    show (List.insertionSort _ (group_rows rows)).map _ =
      (List.insertionSort _ (group_rows rows2)).map _
    rw [heq]
  · intro s hs
    obtain ⟨p, hp, rfl⟩ := List.mem_map.mp hs
    have hpg : p ∈ group_rows rows := hp1.mem_iff.mp hp
    have hlo : dict_get p.1 (group_rows rows) = some p.2 :=
      mem_dict_get p.1 p.2 _ hnd1 hpg
    rw [group_rows_lookup] at hlo
    by_cases hany : rows.any (fun r => (r.branch, r.license) = p.1) = true
    · rw [if_pos hany] at hlo
      have heq : group_fold ⟨0, 0⟩ rows p.1 = p.2 := Option.some.inj hlo
      constructor
      · show p.2.cents = (sum_amounts rows (p.1.1, p.1.2)).cents
        rw [← heq]
        rfl
      · show rows.any (fun r => (r.branch, r.license) = (p.1.1, p.1.2)) = true
        exact hany
    · rw [if_neg hany] at hlo
      cases hlo
  · intro k hk
    have hlo : dict_get k (group_rows rows) = some (group_fold ⟨0, 0⟩ rows k) := by
      rw [group_rows_lookup, if_pos hk]
    have hm := dict_get_mem _ _ _ hlo
    have hm2 : (k, group_fold ⟨0, 0⟩ rows k) ∈ List.insertionSort
        (fun x y : (Str × Str) × Dec => key_le x.1 y.1 = true) (group_rows rows) :=
      hp1.symm.mem_iff.mp hm
    exact ⟨⟨k.1, k.2, (group_fold ⟨0, 0⟩ rows k).cents⟩,
      List.mem_map.mpr ⟨(k, group_fold ⟨0, 0⟩ rows k), hm2, rfl⟩, rfl⟩
  · exact List.Pairwise.map _ (fun a b hab => hab) hs1

/-- Witness for C4: three rows permuted cyclically give the same summary,
which sums the duplicated key exactly and sorts the keys. -/
theorem C4_breakdown_invariance_witness :
    build_breakdown
        [⟨str "f", str "Bstone", str "Lic", ⟨100, 2⟩⟩,
         ⟨str "f", str "Acworth", str "Lic", ⟨250, 2⟩⟩,
         ⟨str "f", str "Bstone", str "Lic", ⟨50, 2⟩⟩] =
      build_breakdown
        [⟨str "f", str "Bstone", str "Lic", ⟨50, 2⟩⟩,
         ⟨str "f", str "Bstone", str "Lic", ⟨100, 2⟩⟩,
         ⟨str "f", str "Acworth", str "Lic", ⟨250, 2⟩⟩] ∧
    build_breakdown
        [⟨str "f", str "Bstone", str "Lic", ⟨100, 2⟩⟩,
         ⟨str "f", str "Acworth", str "Lic", ⟨250, 2⟩⟩,
         ⟨str "f", str "Bstone", str "Lic", ⟨50, 2⟩⟩] =
      [⟨str "Acworth", str "Lic", 250⟩, ⟨str "Bstone", str "Lic", 150⟩] := by
  have h := C4_breakdown_invariance
    [⟨str "f", str "Bstone", str "Lic", ⟨100, 2⟩⟩,
     ⟨str "f", str "Acworth", str "Lic", ⟨250, 2⟩⟩,
     ⟨str "f", str "Bstone", str "Lic", ⟨50, 2⟩⟩]
    [⟨str "f", str "Bstone", str "Lic", ⟨50, 2⟩⟩,
     ⟨str "f", str "Bstone", str "Lic", ⟨100, 2⟩⟩,
     ⟨str "f", str "Acworth", str "Lic", ⟨250, 2⟩⟩]
    (by decide)
  exact ⟨h.1, by decide⟩

end ITLB